import Mathlib

/-!
# Shallow embedding of the earthwyrm core

This file embeds, in Lean 4, the parts of the earthwyrm vector-tile service
that the verified claims are about:

* the tag-pattern engine of `src/earthwyrm/src/layer.rs`
  (`TagPattern::parse`, `Display for TagPattern`, `matches_value`,
  `matches_value_option`, `check_tags`, `parse_zoom_range`);
* the geometry builder of `src/earthwyrm/src/osm.rs`
  (`check_obj`, `way_linestring`, `rel_polygon`, `connect_ways`,
  `find_ring`, `end_points`, `way_nodes`, `tag_values`, `make_points`);
* the tile dispatcher of `src/earthwyrm/src/tile.rs` (`fetch_tile`,
  `write_tile`, `query_tile`) and the HTTP handler of
  `src/earthwyrm-bin/src/main.rs` (`tile_mvt`).

Rust strings are embedded as `List Char` so that the character-level parsing
functions (`split_once`, `strip_prefix`, `strip_suffix`, `split`) can be
reasoned about directly.  Rust `Vec<T>` is `List T`; `Vec::swap_remove` is
modelled exactly (the last element moves into the removed slot).  OSM ids
(`i64`) are embedded as `Int`.  Fallible code returns `Option`/`Except`;
the one `assert!` in `end_points` is modelled by an `Option` result whose
`none` value denotes the panic.
-/

namespace Earthwyrm

/-- A Rust `&str` / `String`, embedded character by character. -/
abbrev Str := List Char

/-! ## layer.rs: tag patterns -/

/-- `MustMatch` from layer.rs. -/
inductive MustMatch where
  | no
  | yes
deriving DecidableEq, Repr

/-- `IncludeValue` from layer.rs. -/
inductive IncludeValue where
  | no
  | yes
deriving DecidableEq, Repr

/-- `FeatureType` from layer.rs. -/
inductive FeatureType where
  | mvtString
  | mvtSint
deriving DecidableEq, Repr

/-- `Equality` from layer.rs. -/
inductive Equality where
  | equal
  | notEqual
deriving DecidableEq, Repr

/-- `TagPattern` from layer.rs: the five-field pattern record. -/
structure TagPattern where
  must_match : MustMatch
  includeValue : IncludeValue
  feature_type : FeatureType
  tag : Str
  equality : Equality
  values : List Str
deriving DecidableEq, Repr

/-- `str::split_once(sep)`: split at the first occurrence of `sep`;
`none` when `sep` does not occur. -/
def splitOnce (sep : Char) : Str → Option (Str × Str)
  | [] => none
  | c :: cs =>
    if c = sep then some ([], cs)
    else
      match splitOnce sep cs with
      | some (a, b) => some (c :: a, b)
      | none => none

/-- `str::strip_suffix(c)`: drop a final `c`, `none` when the string does
not end with `c`. -/
def dropSuf (sep : Char) (s : Str) : Option Str :=
  match s.getLast? with
  | some c => if c = sep then some s.dropLast else none
  | none => none

/-- `str::strip_prefix(c)`: drop a leading `c`, `none` when the string
does not start with `c`. -/
def dropPre (c : Char) : Str → Option Str
  | x :: rest => if x = c then some rest else none
  | [] => none

/-- `TagPattern::parse_rule`: the `if let Some(pat) = pat.strip_prefix(…)`
chain interpreting the optional `.` / `?` / `$` lead character. -/
def parseRule (pat : Str) : MustMatch × IncludeValue × FeatureType × Str :=
  match dropPre '.' pat with
  | some rest => (.yes, .yes, .mvtString, rest)
  | none =>
    match dropPre '?' pat with
    | some rest => (.no, .yes, .mvtString, rest)
    | none =>
      match dropPre '$' pat with
      | some rest => (.no, .yes, .mvtSint, rest)
      | none => (.yes, .no, .mvtString, pat)

/-- `TagPattern::parse_equality`: split the tag from the value part at the
first `=`, turning a trailing `!` on the tag into not-equal; with no `=`,
the pattern means `tag != _`. -/
def parseEquality (pat : Str) : Str × Equality × Str :=
  match splitOnce '=' pat with
  | some (tag, values) =>
    match dropSuf '!' tag with
    | some tag => (tag, .notEqual, values)
    | none => (tag, .equal, values)
  | none => (pat, .notEqual, ['_'])

/-- `str::split(sep)`: every (possibly empty) piece between occurrences of
`sep`. -/
def splitAll (sep : Char) : Str → List Str
  | [] => [[]]
  | c :: cs =>
    if c = sep then [] :: splitAll sep cs
    else
      match splitAll sep cs with
      | v :: vs => (c :: v) :: vs
      | [] => [[c]]

/-- `TagPattern::parse_values`: split the value part at `|`. -/
def parseValues (values : Str) : List Str :=
  splitAll '|' values

/-- `TagPattern::parse`. -/
def TagPattern.parse (pat : Str) : TagPattern :=
  let r := parseRule pat
  let e := parseEquality r.2.2.2
  { must_match := r.1, includeValue := r.2.1, feature_type := r.2.2.1,
    tag := e.1, equality := e.2.1, values := parseValues e.2.2 }

/-- The lead character written by `Display for TagPattern` (the first
`match` in `fmt`). -/
def fmtRule (p : TagPattern) : Str :=
  match p.must_match, p.includeValue, p.feature_type with
  | .no, _, .mvtSint => ['$']
  | .no, _, .mvtString => ['?']
  | .yes, .yes, _ => ['.']
  | _, _, _ => []

/-- The `=` / `!=` text written by `Display for TagPattern`. -/
def fmtEquality : Equality → Str
  | .equal => ['=']
  | .notEqual => ['!', '=']

/-- The value loop of `Display for TagPattern`: the values joined by
`sep` (a separator before every value but the first). -/
def joinAll (sep : Char) : List Str → Str
  | [] => []
  | [v] => v
  | v :: vs => v ++ sep :: joinAll sep vs

/-- `Display for TagPattern`: lead character, tag, and — unless the pattern
is exactly `tag != _ …` by its first value — the equality sign and the
`|`-joined values. -/
def TagPattern.fmt (p : TagPattern) : Str :=
  if p.equality = .notEqual ∧ p.values.head? = some ['_'] then
    fmtRule p ++ p.tag
  else
    fmtRule p ++ p.tag ++ fmtEquality p.equality ++ joinAll '|' p.values

/-! ## layer.rs: matching -/

/-- An OSM tag dictionary (`osmpbfreader::Tags`): an association list with
unique keys; `get` is `List.lookup`. -/
abbrev Tags := List (Str × Str)

/-- `TagPattern::matches_value_option`: a present value must be one of the
pattern's values, an absent tag matches when `_` is one of the values. -/
def TagPattern.matches_value_option (p : TagPattern) (value : Option Str) : Bool :=
  match value with
  | some val => p.values.any (fun v => v = val)
  | none => p.values.any (fun v => v = ['_'])

/-- `TagPattern::matches_value`: `eq` keeps, `neq` negates, the result of
`matches_value_option`. -/
def TagPattern.matches_value (p : TagPattern) (value : Option Str) : Bool :=
  match p.equality with
  | .equal => p.matches_value_option value
  | .notEqual => !(p.matches_value_option value)

/-- `TagPattern::match_tag`: the tag, for `must_match` patterns only. -/
def TagPattern.match_tag (p : TagPattern) : Option Str :=
  match p.must_match with
  | .yes => some p.tag
  | .no => none

/-- `TagPattern::include_tag`: the tag, for `include` patterns only. -/
def TagPattern.include_tag (p : TagPattern) : Option Str :=
  match p.includeValue with
  | .yes => some p.tag
  | .no => none

/-- `GeomType` from the mvt crate, as used by layer.rs. -/
inductive GeomType where
  | point
  | linestring
  | polygon
deriving DecidableEq, Repr

/-- The fields of `LayerDef` the claims depend on. -/
structure LayerDef where
  geom_tp : GeomType
  patterns : List TagPattern
deriving Repr

/-- `LayerDef::check_tags`: every `must_match` pattern must match the
dictionary (the Rust loop returns `false` on the first failure). -/
def LayerDef.check_tags (layer : LayerDef) (tags : Tags) : Bool :=
  layer.patterns.all (fun p =>
    match p.match_tag with
    | some tag => p.matches_value (tags.lookup tag)
    | none => true)

/-- `LayerDef::tags`: the tags of the `include` patterns, in declaration
order. -/
def LayerDef.tagsIncluded (layer : LayerDef) : List Str :=
  layer.patterns.filterMap TagPattern.include_tag

/-! ## layer.rs: zoom parsing -/

/-- The error cases of `parse_zoom` (`Error::ParseInt` and
`Error::InvalidZoomLevel`). -/
inductive ZoomError where
  | parseIntError
  | invalidZoomLevel (z : Nat)
deriving DecidableEq, Repr

/-- One step of `u32::from_str`: accumulate decimal digits, failing on any
non-digit character. -/
def parseDigits : Nat → Str → Option Nat
  | acc, [] => some acc
  | acc, c :: cs =>
    if c.isDigit then parseDigits (acc * 10 + (c.toNat - '0'.toNat)) cs
    else none

/-- The optional leading `+` accepted by `u32::from_str`. -/
def dropPlus : Str → Str
  | '+' :: rest => rest
  | s => s

/-- `str::parse::<u32>`: an optional leading `+`, then at least one decimal
digit, value below `2^32`. -/
def parseU32 (s : Str) : Option Nat :=
  match dropPlus s with
  | [] => none
  | s' =>
    match parseDigits 0 s' with
    | some v => if v < 4294967296 then some v else none
    | none => none

/-- `parse_zoom`: a `u32` at most `ZOOM_MAX = 30`. -/
def parseZoom (s : Str) : Except ZoomError Nat :=
  match parseU32 s with
  | none => .error .parseIntError
  | some z => if z ≤ 30 then .ok z else .error (.invalidZoomLevel z)

/-- `parse_zoom_range`: `N-M` via `split_once('-')`, `N+` via
`strip_suffix('+')` (maximum 30), otherwise a single level `N`. -/
def parseZoomRange (z : Str) : Except ZoomError (Nat × Nat) :=
  match splitOnce '-' z with
  | some (a, b) =>
    match parseZoom a with
    | .error e => .error e
    | .ok zoomMin =>
      match parseZoom b with
      | .error e => .error e
      | .ok zoomMax => .ok (zoomMin, zoomMax)
  | none =>
    match dropSuf '+' z with
    | some z =>
      match parseZoom z with
      | .error e => .error e
      | .ok zoomMin => .ok (zoomMin, 30)
    | none =>
      match parseZoom z with
      | .error e => .error e
      | .ok zoom => .ok (zoom, zoom)

/-! ## osm.rs: OSM objects and the object map

`OsmId` / `OsmObj` are the osmpbfreader views the builder consumes; the
`ObjMap` returned by `get_objs_and_deps` is embedded as an id-ordered list
of objects, with `BTreeMap::get` as a `find?` by id. -/

/-- `osmpbfreader::OsmId`: a kind-tagged object id. -/
inductive OsmId where
  | node (id : Int)
  | way (id : Int)
  | rel (id : Int)
deriving DecidableEq, Repr

/-- A member reference of a relation (`osmpbfreader::Ref`). -/
structure OsmRef where
  role : String
  member : OsmId
deriving DecidableEq, Repr

/-- `osmpbfreader::OsmObj`, with just the fields the builder reads. -/
inductive OsmObj where
  | node (id : Int) (tags : Tags)
  | way (id : Int) (tags : Tags) (nodes : List Int)
  | rel (id : Int) (tags : Tags) (refs : List OsmRef)
deriving DecidableEq, Repr

/-- The id of an object. -/
def OsmObj.id : OsmObj → OsmId
  | .node i _ => .node i
  | .way i _ _ => .way i
  | .rel i _ _ => .rel i

/-- The tags of an object. -/
def OsmObj.tags : OsmObj → Tags
  | .node _ t => t
  | .way _ t _ => t
  | .rel _ t _ => t

/-- `OsmObj::is_way`. -/
def OsmObj.isWay : OsmObj → Bool
  | .way .. => true
  | _ => false

/-- `OsmObj::is_relation`. -/
def OsmObj.isRel : OsmObj → Bool
  | .rel .. => true
  | _ => false

/-- The object map: id-keyed lookup (`BTreeMap::get`). -/
def objGet (objs : List OsmObj) (id : OsmId) : Option OsmObj :=
  objs.find? (fun o => o.id = id)

/-- `LayerDef::check_obj`: point and linestring layers test tags only
(any object kind); polygon layers additionally require a relation or a
way. -/
def LayerDef.check_obj (layer : LayerDef) (obj : OsmObj) : Bool :=
  match layer.geom_tp with
  | .point | .linestring => layer.check_tags obj.tags
  | .polygon => (obj.isRel || obj.isWay) && layer.check_tags obj.tags

/-- The direct dependencies of an object: a way needs its nodes, a
relation its members.  Part of the `get_objs_and_deps` contract of the
external osmpbfreader crate (spec §4.3.1). -/
def OsmObj.depIds : OsmObj → List OsmId
  | .node .. => []
  | .way _ _ nodes => nodes.map OsmId.node
  | .rel _ _ refs => refs.map OsmRef.member

/-- One round of dependency closure: add the direct dependencies of every
already-selected object. -/
def depStep (world : List OsmObj) (ids : List OsmId) : List OsmId :=
  ids ++ (((world.filter (fun o => ids.contains o.id)).flatMap OsmObj.depIds).filter
    (fun i => !(ids.contains i)))

/-- Iterated dependency closure with fuel. -/
def depMany (world : List OsmObj) : Nat → List OsmId → List OsmId
  | 0, ids => ids
  | fuel + 1, ids => depMany world fuel (depStep world ids)

/-- Modelled from the external `osmpbfreader::get_objs_and_deps` contract
(spec §4.3.1): the objects matching the predicate together with their
transitive dependencies, in id order (the order of `world`). -/
def getObjsAndDeps (world : List OsmObj) (pred : OsmObj → Bool) : List OsmObj :=
  let ids := depMany world world.length ((world.filter pred).map OsmObj.id)
  world.filter (fun o => ids.contains o.id)

/-! ## osm.rs: geometry construction -/

/-- `end_points` with the `assert!(way.len() > 1)` modelled: `none` is the
panic. -/
def endPointsChecked (way : List Int) : Option (Int × Int) :=
  if 1 < way.length then some ((way.head?).getD 0, (way.getLast?).getD 0)
  else none

/-- `end_points` on a way already known to have at least two nodes (every
use inside `rel_polygon` / `connect_ways` / `find_ring` is on such a
way). -/
def endPoints (way : List Int) : Int × Int :=
  ((way.head?).getD 0, (way.getLast?).getD 0)

/-- `way_linestring`, at the node-id level (`lookup_nodes` projects ids to
Web-Mercator coordinates pointwise and does not affect the control flow):
an empty way is dropped (`.ok none`), otherwise `end_points` runs — and
panics on a single-node way (`.error`). -/
def wayLinestring (nodes : List Int) : Except String (Option (List Int)) :=
  if nodes.isEmpty then .ok none
  else
    match endPointsChecked nodes with
    | none => .error "assertion failed: way.len() > 1"
    | some _ => .ok (some nodes)

/-- `GeometryMaker::way_nodes`: the member way's node list, `[]` when the
member is absent from the map, is not a way, or has at most one node. -/
def wayNodes (objs : List OsmObj) (id : OsmId) : List Int :=
  match objGet objs id with
  | some (.way _ _ nodes) => if 1 < nodes.length then nodes else []
  | _ => []

/-- `Vec::swap_remove(j)`: remove index `j`, moving the last element into
its place. -/
def swapRemove {α : Type} (l : List α) (j : Nat) : List α :=
  match l.getLast? with
  | none => []
  | some last => if j + 1 = l.length then l.dropLast else l.dropLast.set j last

/-- The endpoint-sharing test in `connect_ways`:
`a0 == b0 || a0 == b1 || a1 == b0 || a1 == b1`. -/
def shares (a b : List Int) : Bool :=
  decide ((endPoints a).1 = (endPoints b).1 ∨ (endPoints a).1 = (endPoints b).2 ∨
    (endPoints a).2 = (endPoints b).1 ∨ (endPoints a).2 = (endPoints b).2)

/-- The inner loop of `connect_ways`: the first way in `rest` sharing an
endpoint with `a`. -/
def findJ (a : List Int) : List (List Int) → Option Nat
  | [] => none
  | b :: bs => if shares a b then some 0 else (findJ a bs).map (· + 1)

/-- The double loop of `connect_ways`: the first pair `i < j` of ways that
share an endpoint, in the source's iteration order. -/
def findIJ : List (List Int) → Option (Nat × Nat)
  | [] => none
  | a :: rest =>
    match findJ a rest with
    | some j => some (0, j + 1)
    | none => (findIJ rest).map (fun ij => (ij.1 + 1, ij.2 + 1))

/-- The merge performed by `connect_ways` once a sharing pair is found:
reverse `a` unless its last node is the joint, reverse `b` when its last
node is the joint, then concatenate dropping the duplicated joint node
(`ways[i].pop(); ways[i].extend(way)`). -/
def mergeWays (a b : List Int) : List Int :=
  let a2 := if (endPoints a).2 ≠ (endPoints b).1 ∧ (endPoints a).2 ≠ (endPoints b).2
    then a.reverse else a
  let b2 := if (endPoints b).2 = (endPoints a2).2 then b.reverse else b
  a2.dropLast ++ b2

/-- `connect_ways`: `none` when no two ways share an endpoint (Rust
`false`), otherwise the updated `Vec` (Rust `true`): the way at `j` is
`swap_remove`d and merged into the way at `i`. -/
def connectWays (ways : List (List Int)) : Option (List (List Int)) :=
  match findIJ ways with
  | none => none
  | some (i, j) =>
    some ((swapRemove ways j).set i (mergeWays (ways.getD i []) (ways.getD j [])))

/-- The `while ways.len() > 1 { if !connect_ways(&mut ways) { break } }`
loop, with fuel (each merge shrinks the vector, so `ways.length` fuel
reaches the loop's own exit). -/
def spliceF : Nat → List (List Int) → List (List Int)
  | 0, ways => ways
  | fuel + 1, ways =>
    if 1 < ways.length then
      match connectWays ways with
      | some w => spliceF fuel w
      | none => ways
    else ways

/-- The index search of `find_ring`: the first way whose endpoints
coincide. -/
def findRingIdx : List (List Int) → Option Nat
  | [] => none
  | w :: ws =>
    if (endPoints w).1 = (endPoints w).2 then some 0
    else (findRingIdx ws).map (· + 1)

/-- `find_ring`: `swap_remove` the first closed way and return it. -/
def findRing (ways : List (List Int)) : Option (List Int × List (List Int)) :=
  match findRingIdx ways with
  | none => none
  | some i => some (ways.getD i [], swapRemove ways i)

/-- The `while let Some(ring) = find_ring(&mut ways)` loop, with fuel:
all closed ways extracted in order, and the remaining vector. -/
def extractF : Nat → List (List Int) → List (List Int) × List (List Int)
  | 0, ways => ([], ways)
  | fuel + 1, ways =>
    match findRing ways with
    | some rr =>
      let r := extractF fuel rr.2
      (rr.1 :: r.1, r.2)
    | none => ([], ways)

/-- The polygon being assembled, with rings at the node-id level
(`lookup_nodes` projects each ring's ids to coordinates pointwise). -/
structure Polygon where
  outer : List (List Int)
  inner : List (List Int)
deriving DecidableEq, Repr

/-- The `outer`/`inner`/skip decision on a member's role. -/
def roleFlag (role : String) : Option Bool :=
  if role = "outer" then some true
  else if role = "inner" then some false
  else none

/-- The body of `rel_polygon`'s `for rf in &rel.refs` loop: skip members
with other roles and unresolvable ways, push the way, splice while
possible, then extract every completed ring into the polygon under the
current member's role. -/
def relStep (objs : List OsmObj) (st : List (List Int) × Polygon) (rf : OsmRef) :
    List (List Int) × Polygon :=
  match roleFlag rf.role with
  | none => st
  | some outer =>
    let nodes := wayNodes objs rf.member
    if nodes = [] then st
    else
      let ways1 := st.1 ++ [nodes]
      let ways2 := spliceF ways1.length ways1
      let er := extractF ways2.length ways2
      (er.2,
        if outer then { st.2 with outer := st.2.outer ++ er.1 }
        else { st.2 with inner := st.2.inner ++ er.1 })

/-- The final state of `rel_polygon`'s working collection `W` and polygon
after all members are processed. -/
def relFold (objs : List OsmObj) (refs : List OsmRef) : List (List Int) × Polygon :=
  refs.foldl (relStep objs) ([], ⟨[], []⟩)

/-- `rel_polygon`: the polygon, provided the working collection ended
empty; `none` (a broken, dropped relation) otherwise. -/
def relPolygon (objs : List OsmObj) (refs : List OsmRef) : Option Polygon :=
  if (relFold objs refs).1 = [] then some (relFold objs refs).2 else none

/-- The member ways `rel_polygon` actually consumes: the resolvable ways
of the `outer`/`inner` members, in declaration order. -/
def memberWays (objs : List OsmObj) (refs : List OsmRef) : List (List Int) :=
  refs.filterMap (fun rf =>
    match roleFlag rf.role with
    | none => none
    | some _ =>
      let nodes := wayNodes objs rf.member
      if nodes = [] then none else some nodes)

/-! ## osm.rs: points and tag values -/

/-- `GeometryMaker::tag_values`: one optional value per `include` pattern,
in declaration order; the special tag `osm_id` captures the object id. -/
def tagValues (layer : LayerDef) (id : Int) (tags : Tags) : List (Option Str) :=
  layer.tagsIncluded.map (fun tag =>
    if tag = "osm_id".data then some (toString id).data else tags.lookup tag)

/-- `make_points`, at the id level: `node_point` returns `Some` for every
node, so a point is pushed for every node of the object map. -/
def makePoints (objs : List OsmObj) : List Int :=
  objs.filterMap (fun o =>
    match o with
    | .node i _ => some i
    | _ => none)

/-- The `dig` pipeline for one point layer: extract the matching objects
with their dependencies, then write a point per node of the map. -/
def extractPoints (layer : LayerDef) (world : List OsmObj) : List Int :=
  makePoints (getObjsAndDeps world layer.check_obj)

/-! ## tile.rs and earthwyrm-bin/src/main.rs: dispatch

The geometry querying below a layer is abstracted into the number of
features the layer's `query_tile` produced for the requested tile; the
dispatch logic (`query_tile` / `write_tile` / `fetch_tile` and the HTTP
handler `tile_mvt`) is embedded as in the source. -/

/-- The `earthwyrm::Error` variants the dispatcher distinguishes. -/
inductive EwError where
  | tileEmpty
  | unknownGroupName
  | otherError
deriving DecidableEq, Repr

/-- A layer inside a group, with the feature count its `query_tile`
produced for the fixed requested tile. -/
structure LayerQ where
  name : String
  numFeatures : Nat
deriving DecidableEq, Repr

/-- `LayerGroup`: a named list of layers. -/
structure LayerGroup where
  name : String
  layers : List LayerQ
deriving DecidableEq, Repr

/-- `LayerGroup::query_tile`: layers are added to the tile only when they
produced at least one feature. -/
def queryTile (g : LayerGroup) : List LayerQ :=
  g.layers.filter (fun l => 0 < l.numFeatures)

/-- `LayerGroup::write_tile`: write the tile when it has a layer,
otherwise fail with `Error::TileEmpty`. -/
def writeTile (g : LayerGroup) : Except EwError (List String) :=
  let tile := queryTile g
  if 0 < tile.length then .ok (tile.map LayerQ.name) else .error .tileEmpty

/-- `Wyrm::fetch_tile`: the first group with the requested name writes the
tile; an unmatched name is `Error::UnknownGroupName`. -/
def fetchTile (groups : List LayerGroup) (groupName : String) :
    Except EwError (List String) :=
  match groups.find? (fun g => groupName = g.name) with
  | some g => writeTile g
  | none => .error .unknownGroupName

/-- The HTTP status codes the `tile_mvt` handler of
earthwyrm-bin/src/main.rs produces: a malformed tile id is 404, a fetched
tile is 200, `TileEmpty` is 404, and every other error — including
`UnknownGroupName` — falls into the 500 arm. -/
def tileMvt (groups : List LayerGroup) (groupName : String)
    (tid : Option Unit) : Nat :=
  match tid with
  | none => 404
  | some _ =>
    match fetchTile groups groupName with
    | .ok _ => 200
    | .error .tileEmpty => 404
    | .error _ => 500

/-! ## Concrete inputs used by the counterexamples and witnesses -/

/-- Six two-node member ways forming two simple rings — `1-2-3-1` and
`2-5-6-2` — that touch at node 2. -/
def exObjsTouching : List OsmObj :=
  [.way 11 [] [1, 2], .way 12 [] [2, 5], .way 13 [] [2, 3],
   .way 14 [] [5, 6], .way 15 [] [3, 1], .way 16 [] [6, 2]]

/-- The members of the touching-rings relation, all with role `outer`. -/
def exRefsTouching : List OsmRef :=
  [⟨"outer", .way 11⟩, ⟨"outer", .way 12⟩, ⟨"outer", .way 13⟩,
   ⟨"outer", .way 14⟩, ⟨"outer", .way 15⟩, ⟨"outer", .way 16⟩]

/-- A single resolvable closed member way. -/
def exObjsClosed : List OsmObj := [.way 21 [] [1, 2, 1]]

/-- A relation whose first member resolves to a closed way and whose
second member (way 22) is missing from the object map. -/
def exRefsMissing : List OsmRef := [⟨"outer", .way 21⟩, ⟨"outer", .way 22⟩]

/-- Members forming one outer ring `1-2-3-4-1` from two open ways. -/
def exObjsRing : List OsmObj := [.way 31 [] [1, 2, 3], .way 32 [] [3, 4, 1]]

/-- The two members of the one-ring relation. -/
def exRefsRing : List OsmRef := [⟨"outer", .way 31⟩, ⟨"outer", .way 32⟩]

/-- A single open member way whose closing way is missing. -/
def exObjsOpen : List OsmObj := [.way 41 [] [1, 2]]

/-- The one resolvable member of the open relation. -/
def exRefsOpen : List OsmRef := [⟨"outer", .way 41⟩]

/-- A point layer matching `highway=x`. -/
def exLayerPoint : LayerDef :=
  ⟨.point, [⟨.yes, .no, .mvtString, "highway".data, .equal, ["x".data]⟩]⟩

/-- A world with an untagged node 1 and a way 10 tagged `highway=x` whose
only node is node 1. -/
def exWorldPoint : List OsmObj :=
  [.node 1 [], .way 10 [("highway".data, "x".data)] [1]]

/-- The pattern `name=_`. -/
def pUnderscore : TagPattern :=
  ⟨.yes, .no, .mvtString, "name".data, .equal, [['_']]⟩

/-- The shorthand pattern `name` (that is, `name!=_`). -/
def pShorthand : TagPattern :=
  ⟨.yes, .no, .mvtString, "name".data, .notEqual, [['_']]⟩

/-- A dictionary in which `name` is present with the empty value. -/
def exDictEmptyVal : Tags := [("name".data, [])]

/-- A layer with one include pattern (`?name`) and one match-only pattern
(`boundary=administrative`). -/
def exLayerTwoPatterns : LayerDef :=
  ⟨.polygon, [TagPattern.parse "?name".data,
              TagPattern.parse "boundary=administrative".data]⟩

/-- One group `osm` whose single layer produced no features for the
requested tile. -/
def exGroupsEmpty : List LayerGroup := [⟨"osm", [⟨"roads", 0⟩]⟩]

/-! ## Endpoint parity

The spec's "endpoints cancel out" condition: counting, for each node, how
often it occurs as a way endpoint, every count is even.  The count is
taken in `ZMod 2`, where evenness is being zero. -/

/-- How often (mod 2) node `n` is an endpoint of the way `w`. -/
def endCount2 (n : Int) (w : List Int) : ZMod 2 :=
  (if w.head? = some n then 1 else 0) + (if w.getLast? = some n then 1 else 0)

/-- How often (mod 2) node `n` is an endpoint over a collection of
ways. -/
def endSum2 (n : Int) (ways : List (List Int)) : ZMod 2 :=
  (ways.map (endCount2 n)).sum

/-- Every endpoint node of a collection of ways. -/
def endpointNodes (ways : List (List Int)) : List Int :=
  ways.flatMap (fun w => [(endPoints w).1, (endPoints w).2])

/-- The spec's "endpoints cancel out": every node occurs as an endpoint an
even number of times. -/
def cancels (ways : List (List Int)) : Bool :=
  (endpointNodes ways).all (fun n => endSum2 n ways = 0)

/-! ## Ring decomposition (spec side)

For the ring-assembly claim, "the rings of that multipolygon": a group of
member ways chains into a ring when each way starts at the node where the
previous one ended and the concatenation (duplicate joints dropped)
closes. -/

/-- Concatenate ways, requiring each to start at the node where the
accumulated path ends, dropping the duplicated joint node. -/
def chainCat : List Int → List (List Int) → Option (List Int)
  | acc, [] => some acc
  | acc, w :: ws =>
    match acc.getLast?, w.head? with
    | some x, some y => if x = y then chainCat (acc.dropLast ++ w) ws else none
    | _, _ => none

/-- Spec side: the ways, in the given order, assemble exactly the closed
ring `ring`. -/
def chainsTo (ways : List (List Int)) (ring : List Int) : Bool :=
  match ways with
  | [] => false
  | w :: ws =>
    match chainCat w ws with
    | some r => r = ring ∧ r.head? = r.getLast? ∧ 2 ≤ r.length
    | none => false

/-- Spec side: a simple ring — closed, with no repeated node except the
closing one. -/
def simpleRing (ring : List Int) : Bool :=
  ring.dropLast.Nodup ∧ ring.head? = ring.getLast?

/-! ## C4: matcher algebra -/

/-- C4: for every tag dictionary `D`, tag name and value list, evaluating
the pattern with equality `eq` on `D` is the boolean negation of
evaluating the same pattern with equality `neq` on `D`. -/
theorem matches_value_eq_not_neq (D : Tags) (tag : Str) (vs : List Str)
    (mm : MustMatch) (inc : IncludeValue) (ft : FeatureType) :
    (TagPattern.mk mm inc ft tag .equal vs).matches_value (D.lookup tag) =
      !((TagPattern.mk mm inc ft tag .notEqual vs).matches_value (D.lookup tag)) := by
  simp [TagPattern.matches_value, TagPattern.matches_value_option]

/-! ## C6: a single-node way panics in `end_points` -/

/-- C6 (code bug): `way_linestring` drops an empty way normally, but a way
with exactly one node reaches `end_points`, whose
`assert!(way.len() > 1)` fails: the build panics instead of dropping the
way as the spec prescribes. -/
theorem wayLinestring_single_node_panics :
    wayLinestring [(1 : Int)] = .error "assertion failed: way.len() > 1" ∧
      wayLinestring ([] : List Int) = .ok none := by
  constructor <;> rfl

/-! ## C7: empty vs missing at the HTTP boundary -/

/-- C7 counterexample: on a known group whose every layer produced zero
features the handler answers 404 — not the claimed 204 — and on an
unknown group name it answers 500 — not the claimed 404. -/
theorem tileMvt_counterexample :
    tileMvt exGroupsEmpty "osm" (some ()) = 404 ∧
      tileMvt exGroupsEmpty "xyz" (some ()) = 500 ∧
      ¬(tileMvt exGroupsEmpty "osm" (some ()) = 204 ∧
        tileMvt exGroupsEmpty "xyz" (some ()) = 404) := by
  refine ⟨rfl, rfl, ?_⟩
  intro h
  exact absurd h.1 (by decide)

/-- C7 (amended): the two outcomes are distinguishable at the library
boundary — `fetch_tile` returns `UnknownGroupName` for an unknown group
and `TileEmpty` for an empty tile — but the HTTP handler maps the former
to 500 and the latter to 404; no 204 is produced, and a malformed tile id
is 404. -/
theorem tileMvt_outcomes (groups : List LayerGroup) (g : String) :
    (groups.find? (fun gr => g = gr.name) = none →
      fetchTile groups g = .error .unknownGroupName ∧
        tileMvt groups g (some ()) = 500) ∧
    (∀ gr, groups.find? (fun gr2 => g = gr2.name) = some gr →
      (∀ l ∈ gr.layers, l.numFeatures = 0) →
      fetchTile groups g = .error .tileEmpty ∧
        tileMvt groups g (some ()) = 404) ∧
    EwError.unknownGroupName ≠ EwError.tileEmpty ∧
    tileMvt groups g none = 404 := by
  refine ⟨?_, ?_, by decide, rfl⟩
  · intro h
    have hf : fetchTile groups g = .error .unknownGroupName := by
      unfold fetchTile
      rw [h]
    refine ⟨hf, ?_⟩
    unfold tileMvt
    rw [hf]
  · intro gr h hz
    have hq : queryTile gr = [] := by
      unfold queryTile
      rw [List.filter_eq_nil_iff]
      intro l hl
      simp [hz l hl]
    have hw : writeTile gr = .error .tileEmpty := by
      unfold writeTile
      rw [hq]
      rfl
    have hf : fetchTile groups g = .error .tileEmpty := by
      simp only [fetchTile, h]
      exact hw
    refine ⟨hf, ?_⟩
    unfold tileMvt
    rw [hf]

/-- C7 witness: the amended statement evaluated on the one-group world:
unknown group `xyz` gives `UnknownGroupName`/500, the empty known group
`osm` gives `TileEmpty`/404. -/
theorem tileMvt_outcomes_witness :
    (fetchTile exGroupsEmpty "xyz" = .error .unknownGroupName ∧
      tileMvt exGroupsEmpty "xyz" (some ()) = 500) ∧
    (fetchTile exGroupsEmpty "osm" = .error .tileEmpty ∧
      tileMvt exGroupsEmpty "osm" (some ()) = 404) :=
  ⟨(tileMvt_outcomes exGroupsEmpty "xyz").1 (by decide),
   (tileMvt_outcomes exGroupsEmpty "osm").2.1 ⟨"osm", [⟨"roads", 0⟩]⟩
     (by decide) (by decide)⟩

/-! ## C10: values parallel to the include patterns -/

/-- C10 counterexample: a layer with two declared patterns of which only
one is an `include` pattern stores a values list of length 1, not 2. -/
theorem tagValues_length_counterexample :
    (tagValues exLayerTwoPatterns 5 []).length = 1 ∧
      exLayerTwoPatterns.patterns.length = 2 ∧
      (tagValues exLayerTwoPatterns 5 []).length ≠
        exLayerTwoPatterns.patterns.length := by
  refine ⟨rfl, rfl, by decide⟩

/-- C10 (amended): the values list of a stored geometry is parallel to the
`include` patterns of the owning layer — entry `i` is the value captured
for the `i`-th include pattern (the special tag `osm_id` capturing the
object id) — its length being the number of include patterns, not the
number of all declared patterns. -/
theorem tagValues_parallel (layer : LayerDef) (id : Int) (tags : Tags) :
    (tagValues layer id tags).length = layer.tagsIncluded.length ∧
    ∀ i : Nat, (tagValues layer id tags)[i]? =
      (layer.tagsIncluded[i]?).map (fun tag =>
        if tag = "osm_id".data then some (toString id).data
        else tags.lookup tag) := by
  refine ⟨List.length_map _ _, fun i => ?_⟩
  simp [tagValues]

/-! ## C5: the `_` value and the bare-tag shorthand -/

/-- C5 counterexample: with `name` present but empty, the pattern `name=_`
does not match (the claim says "absent or empty" matches `_`), while the
shorthand `name` does match (the claim says it requires a non-empty
value). -/
theorem underscore_counterexample :
    pUnderscore.matches_value (exDictEmptyVal.lookup "name".data) = false ∧
      (TagPattern.parse "name".data).matches_value
        (exDictEmptyVal.lookup "name".data) = true := by
  constructor <;> rfl

/-- C5 (amended): the value `_` matches exactly the dictionaries in which
the tag is absent — or carries the literal value `_` — so the shorthand
`tag` (parsed as `tag != _`) accepts a dictionary iff the tag is present
with any value other than the literal `_`, the empty value included. -/
theorem underscore_matches (p : TagPattern) (hv : p.values = [['_']])
    (v : Option Str) :
    (p.matches_value_option v =
      (decide (v = none) || decide (v = some ['_']))) ∧
    (p.equality = .equal → p.matches_value v =
      (decide (v = none) || decide (v = some ['_']))) ∧
    (p.equality = .notEqual → p.matches_value v =
      !(decide (v = none) || decide (v = some ['_']))) ∧
    (∀ s : Str, splitOnce '=' s = none →
      parseEquality s = (s, .notEqual, ['_'])) := by
  have hbase : p.matches_value_option v =
      (decide (v = none) || decide (v = some ['_'])) := by
    cases v with
    | none => simp [TagPattern.matches_value_option, hv]
    | some val => simp [TagPattern.matches_value_option, hv, eq_comm]
  refine ⟨hbase, fun he => ?_, fun he => ?_, fun s hs => ?_⟩
  · rw [TagPattern.matches_value, he]
    exact hbase
  · rw [TagPattern.matches_value, he]
    rw [hbase]
  · unfold parseEquality
    rw [hs]

/-- C5 witness: the amended statement evaluated on the shorthand pattern
`name` against a present-but-empty value and on the plain string
`name`. -/
theorem underscore_matches_witness :
    pShorthand.matches_value (some ([] : Str)) = true ∧
      parseEquality "name".data = ("name".data, .notEqual, ['_']) := by
  constructor
  · exact ((underscore_matches pShorthand rfl (some [])).2.2.1 rfl).trans
      (by decide)
  · exact (underscore_matches pShorthand rfl none).2.2.2 "name".data (by decide)

/-! ## C3: which nodes become points -/

/-- C3 counterexample: node 1 carries no matching tags and is in the map
only as a dependency of the matching way 10, yet `make_points` emits a
point for it. -/
theorem point_layer_counterexample :
    1 ∈ extractPoints exLayerPoint exWorldPoint ∧
      exLayerPoint.check_tags (OsmObj.node 1 []).tags = false ∧
      OsmObj.node 1 [] ∈ exWorldPoint ∧
      exLayerPoint.geom_tp = .point := by
  exact ⟨by decide, rfl, by decide, rfl⟩

/-- C3 (amended): for a point layer, the first-pass predicate tests the
tags only — matching ways and relations are selected as well — and a point
is emitted for every node of the resulting object map, dependency nodes
included. -/
theorem point_layer_emits_map_nodes (layer : LayerDef) (world : List OsmObj)
    (h : layer.geom_tp = .point) :
    (∀ o : OsmObj, layer.check_obj o = layer.check_tags o.tags) ∧
    (∀ i : Int, i ∈ extractPoints layer world ↔
      ∃ t, OsmObj.node i t ∈ getObjsAndDeps world layer.check_obj) := by
  constructor
  · intro o
    unfold LayerDef.check_obj
    rw [h]
  · intro i
    unfold extractPoints makePoints
    rw [List.mem_filterMap]
    constructor
    · rintro ⟨o, ho, hf⟩
      cases o with
      | node j t =>
        obtain rfl : j = i := by simpa using hf
        exact ⟨t, ho⟩
      | way j t ns => simp at hf
      | rel j t rs => simp at hf
    · rintro ⟨t, ht⟩
      exact ⟨.node i t, ht, rfl⟩

/-- C3 witness: on the concrete world, the point-layer predicate on the
tagged way equals its tag check, and the dependency node 1 is emitted. -/
theorem point_layer_emits_map_nodes_witness :
    exLayerPoint.check_obj (OsmObj.way 10 [("highway".data, "x".data)] [1]) =
      exLayerPoint.check_tags
        (OsmObj.way 10 [("highway".data, "x".data)] [1]).tags ∧
      1 ∈ extractPoints exLayerPoint exWorldPoint :=
  ⟨(point_layer_emits_map_nodes exLayerPoint exWorldPoint rfl).1 _,
   ((point_layer_emits_map_nodes exLayerPoint exWorldPoint rfl).2 1).mpr
     ⟨[], by decide⟩⟩

/-! ## Helper lemmas on `splitOnce`, `dropSuf` and `parseU32` -/

theorem splitOnce_eq_none {c : Char} : ∀ {s : Str}, c ∉ s → splitOnce c s = none
  | [], _ => rfl
  | a :: s, h => by
    have ha : ¬a = c := fun hac => h (hac ▸ List.mem_cons_self a s)
    have hs : c ∉ s := fun hc => h (List.mem_cons_of_mem a hc)
    simp [splitOnce, ha, splitOnce_eq_none hs]

theorem splitOnce_none_not_mem {c : Char} :
    ∀ {s : Str}, splitOnce c s = none → c ∉ s
  | [], _ => List.not_mem_nil c
  | a :: s, h => by
    by_cases ha : a = c
    · subst ha
      simp [splitOnce] at h
    · rw [splitOnce, if_neg ha] at h
      intro hmem
      rcases List.mem_cons.mp hmem with hac | hcs
      · exact ha hac.symm
      · cases hsp : splitOnce c s with
        | none => exact splitOnce_none_not_mem hsp hcs
        | some ab => rw [hsp] at h; cases h

theorem splitOnce_append {c : Char} :
    ∀ {a : Str} (b : Str), c ∉ a → splitOnce c (a ++ c :: b) = some (a, b)
  | [], b, _ => by simp [splitOnce]
  | x :: a, b, h => by
    have hx : ¬x = c := fun hxc => h (hxc ▸ List.mem_cons_self x a)
    have ha : c ∉ a := fun hc => h (List.mem_cons_of_mem x hc)
    simp [splitOnce, hx, splitOnce_append b ha]

theorem splitOnce_some {c : Char} :
    ∀ {s a b : Str}, splitOnce c s = some (a, b) → c ∉ a ∧ s = a ++ c :: b
  | [], a, b, h => by cases h
  | x :: s, a, b, h => by
    by_cases hx : x = c
    · subst hx
      rw [splitOnce, if_pos rfl] at h
      cases h
      exact ⟨List.not_mem_nil x, rfl⟩
    · rw [splitOnce, if_neg hx] at h
      cases hsp : splitOnce c s with
      | none => rw [hsp] at h; cases h
      | some ab =>
        rw [hsp] at h
        cases h
        obtain ⟨hna, hs⟩ := splitOnce_some hsp
        refine ⟨?_, by simp [hs]⟩
        intro hmem
        rcases List.mem_cons.mp hmem with hcx | hca
        · exact hx hcx.symm
        · exact hna hca

theorem dropSuf_concat (c : Char) (s : Str) : dropSuf c (s ++ [c]) = some s := by
  unfold dropSuf
  rw [List.getLast?_concat]
  simp

theorem dropSuf_eq_none {c : Char} {s : Str} {d : Char}
    (h : s.getLast? = some d) (hne : d ≠ c) : dropSuf c s = none := by
  unfold dropSuf
  rw [h]
  simp [hne]

theorem parseDigits_isDigit :
    ∀ {s : Str} {acc v : Nat}, parseDigits acc s = some v → ∀ c ∈ s, c.isDigit
  | [], _, _, _ => by intro c hc; exact absurd hc (List.not_mem_nil c)
  | a :: s, acc, v, h => by
    intro c hc
    by_cases ha : a.isDigit
    · rw [parseDigits, if_pos ha] at h
      rcases List.mem_cons.mp hc with rfl | hcs
      · exact ha
      · exact parseDigits_isDigit h c hcs
    · rw [parseDigits, if_neg ha] at h
      cases h

theorem dropPlus_cons_ne {c : Char} (rest : Str) (hc : c ≠ '+') :
    dropPlus (c :: rest) = c :: rest := by
  unfold dropPlus
  split
  · rename_i heq
    injection heq with h1 _
    exact absurd h1 hc
  · rfl

/-- A `parseU32`-accepted string parses via `parseDigits` after the
optional `+`, and the remainder is non-empty. -/
theorem parseU32_digits {s : Str} {n : Nat} (h : parseU32 s = some n) :
    dropPlus s ≠ [] ∧ ∀ c ∈ dropPlus s, c.isDigit := by
  unfold parseU32 at h
  cases hs : dropPlus s with
  | nil => rw [hs] at h; cases h
  | cons r rs =>
    rw [hs] at h
    cases hp : parseDigits 0 (r :: rs) with
    | none => simp only [hp] at h; cases h
    | some v =>
      exact ⟨List.cons_ne_nil r rs, parseDigits_isDigit hp⟩

/-- The shape of a string accepted by `str::parse::<u32>`: non-empty,
every character a digit or a leading `+`, and the last character a
digit. -/
theorem parseU32_shape {s : Str} {n : Nat} (h : parseU32 s = some n) :
    s ≠ [] ∧ (∀ c ∈ s, c.isDigit ∨ c = '+') ∧
      ∃ d, s.getLast? = some d ∧ d.isDigit := by
  obtain ⟨hne, hd⟩ := parseU32_digits h
  cases s with
  | nil => exact absurd rfl hne
  | cons c rest =>
    by_cases hc : c = '+'
    · subst hc
      have hdp : dropPlus ('+' :: rest) = rest := rfl
      rw [hdp] at hne hd
      have hlast : ((('+' : Char) :: rest : Str)).getLast? = rest.getLast? := by
        cases rest with
        | nil => exact absurd rfl hne
        | cons r rs => rw [List.getLast?_cons_cons]
      refine ⟨List.cons_ne_nil _ _, ?_, ?_⟩
      · intro x hx
        rcases List.mem_cons.mp hx with rfl | hxs
        · exact Or.inr rfl
        · exact Or.inl (hd x hxs)
      · refine ⟨rest.getLast hne, ?_, hd _ (List.getLast_mem hne)⟩
        rw [hlast, List.getLast?_eq_getLast _ hne]
    · rw [dropPlus_cons_ne rest hc] at hne hd
      refine ⟨hne, fun x hx => Or.inl (hd x hx), ?_⟩
      refine ⟨(c :: rest).getLast hne, List.getLast?_eq_getLast _ hne, ?_⟩
      exact hd _ (List.getLast_mem hne)

theorem parseZoom_ok_of {s : Str} {z : Nat} (hp : parseU32 s = some z)
    (hz : z ≤ 30) : parseZoom s = .ok z := by
  unfold parseZoom
  rw [hp]
  simp [hz]

theorem parseZoom_le {s : Str} {z : Nat} (h : parseZoom s = .ok z) : z ≤ 30 := by
  unfold parseZoom at h
  cases hp : parseU32 s with
  | none => simp only [hp] at h; cases h
  | some v =>
    simp only [hp] at h
    by_cases hv : v ≤ 30
    · rw [if_pos hv] at h
      injection h with h1
      omega
    · rw [if_neg hv] at h
      cases h

theorem parseU32_not_dash {s : Str} {n : Nat} (h : parseU32 s = some n) :
    '-' ∉ s := by
  obtain ⟨-, hall, -⟩ := parseU32_shape h
  intro hmem
  rcases hall _ hmem with hd | hp
  · exact absurd hd (by decide)
  · exact absurd hp (by decide)

theorem parseU32_dropSuf_plus {s : Str} {n : Nat} (h : parseU32 s = some n) :
    dropSuf '+' s = none := by
  obtain ⟨-, -, d, hlast, hd⟩ := parseU32_shape h
  refine dropSuf_eq_none hlast ?_
  intro hdp
  rw [hdp] at hd
  exact absurd hd (by decide)

/-! ## C8: zoom-range parsing -/

/-- C8 counterexample: the inverted range `16-12` is accepted as
`(16, 12)` although 16 > 12; the claim says every range with `N > M` is
rejected. -/
theorem parseZoomRange_counterexample :
    parseZoomRange "16-12".data = .ok (16, 12) ∧ 12 < 16 := by
  constructor
  · rfl
  · decide

/-- C8 (amended): `zoom` parses with the forms `N`, `N-M` and `N+`
(`N+` meaning `[N, 30]`), each accepted value being checked against the
bound 30 — every accepted pair lies in `[0, 30]` and any level above 30 is
rejected — but a descending range `N-M` with `N > M` is accepted, not
rejected. -/
theorem parseZoomRange_forms :
    (∀ (s : Str) (a b : Nat), parseZoomRange s = .ok (a, b) →
      a ≤ 30 ∧ b ≤ 30) ∧
    (∀ (s1 s2 : Str) (n m : Nat), parseU32 s1 = some n →
      parseU32 s2 = some m → n ≤ 30 → m ≤ 30 →
      parseZoomRange (s1 ++ '-' :: s2) = .ok (n, m)) ∧
    (∀ (s : Str) (n : Nat), parseU32 s = some n → n ≤ 30 →
      parseZoomRange (s ++ ['+']) = .ok (n, 30)) ∧
    (∀ (s : Str) (n : Nat), parseU32 s = some n → n ≤ 30 →
      parseZoomRange s = .ok (n, n)) ∧
    (∀ (s : Str) (n : Nat), parseU32 s = some n → 30 < n →
      parseZoomRange s = .error (.invalidZoomLevel n)) := by
  refine ⟨?_, ?_, ?_, ?_, ?_⟩
  · intro s a b h
    unfold parseZoomRange at h
    cases h1 : splitOnce '-' s with
    | some xy =>
      obtain ⟨x, y⟩ := xy
      simp only [h1] at h
      cases hza : parseZoom x with
      | error e => simp only [hza] at h; cases h
      | ok z1 =>
        simp only [hza] at h
        cases hzb : parseZoom y with
        | error e => simp only [hzb] at h; cases h
        | ok z2 =>
          simp only [hzb, Except.ok.injEq, Prod.mk.injEq] at h
          obtain ⟨rfl, rfl⟩ := h
          exact ⟨parseZoom_le hza, parseZoom_le hzb⟩
    | none =>
      simp only [h1] at h
      cases h2 : dropSuf '+' s with
      | some z =>
        simp only [h2] at h
        cases hz : parseZoom z with
        | error e => simp only [hz] at h; cases h
        | ok z1 =>
          simp only [hz, Except.ok.injEq, Prod.mk.injEq] at h
          obtain ⟨rfl, rfl⟩ := h
          exact ⟨parseZoom_le hz, by omega⟩
      | none =>
        simp only [h2] at h
        cases hz : parseZoom s with
        | error e => simp only [hz] at h; cases h
        | ok z1 =>
          simp only [hz, Except.ok.injEq, Prod.mk.injEq] at h
          obtain ⟨rfl, rfl⟩ := h
          exact ⟨parseZoom_le hz, parseZoom_le hz⟩
  · intro s1 s2 n m h1 h2 hn hm
    unfold parseZoomRange
    simp only [splitOnce_append s2 (parseU32_not_dash h1),
      parseZoom_ok_of h1 hn, parseZoom_ok_of h2 hm]
  · intro s n h hn
    have hnd : '-' ∉ s ++ ['+'] := by
      intro hmem
      rcases List.mem_append.mp hmem with hs | hp
      · exact parseU32_not_dash h hs
      · rcases List.mem_singleton.mp hp with h'
        exact absurd h' (by decide)
    unfold parseZoomRange
    simp only [splitOnce_eq_none hnd, dropSuf_concat, parseZoom_ok_of h hn]
  · intro s n h hn
    unfold parseZoomRange
    simp only [splitOnce_eq_none (parseU32_not_dash h),
      parseU32_dropSuf_plus h, parseZoom_ok_of h hn]
  · intro s n h hn
    have hz : parseZoom s = .error (.invalidZoomLevel n) := by
      unfold parseZoom
      simp only [h]
      rw [if_neg (by omega)]
    unfold parseZoomRange
    simp only [splitOnce_eq_none (parseU32_not_dash h),
      parseU32_dropSuf_plus h, hz]

/-- C8 witness: the amended statement evaluated on concrete strings: the
ascending range `7-9`, the suffix form `4+`, the single level `5`, and the
rejected level `31`. -/
theorem parseZoomRange_forms_witness :
    parseZoomRange "7-9".data = .ok (7, 9) ∧
      parseZoomRange "4+".data = .ok (4, 30) ∧
      parseZoomRange "5".data = .ok (5, 5) ∧
      parseZoomRange "31".data = .error (.invalidZoomLevel 31) :=
  ⟨parseZoomRange_forms.2.1 "7".data "9".data 7 9 (by decide) (by decide)
      (by decide) (by decide),
   parseZoomRange_forms.2.2.1 "4".data 4 (by decide) (by decide),
   parseZoomRange_forms.2.2.2.1 "5".data 5 (by decide) (by decide),
   parseZoomRange_forms.2.2.2.2 "31".data 31 (by decide) (by decide)⟩

/-! ## Helper lemmas on `splitAll`, `joinAll`, `dropPre` and `parseRule` -/

theorem splitAll_ne_nil (sep : Char) : ∀ (s : Str), splitAll sep s ≠ []
  | [] => by simp [splitAll]
  | c :: cs => by
    unfold splitAll
    by_cases hc : c = sep
    · simp [hc]
    · rw [if_neg hc]
      cases h : splitAll sep cs with
      | nil => simp
      | cons v vs => simp

theorem splitAll_not_mem (sep : Char) :
    ∀ (s : Str), ∀ v ∈ splitAll sep s, sep ∉ v
  | [], v, hv => by
    rw [show splitAll sep [] = [[]] from rfl] at hv
    rw [List.mem_singleton.mp hv]
    exact List.not_mem_nil sep
  | c :: cs, v, hv => by
    by_cases hc : c = sep
    · rw [splitAll, if_pos hc] at hv
      rcases List.mem_cons.mp hv with rfl | hvs
      · exact List.not_mem_nil sep
      · exact splitAll_not_mem sep cs v hvs
    · rw [splitAll, if_neg hc] at hv
      cases h : splitAll sep cs with
      | nil => exact absurd h (splitAll_ne_nil sep cs)
      | cons v0 vs =>
        rw [h] at hv
        rcases List.mem_cons.mp hv with rfl | hvs
        · intro hmem
          rcases List.mem_cons.mp hmem with rfl | hv0
          · exact hc rfl
          · exact splitAll_not_mem sep cs v0 (h ▸ List.mem_cons_self v0 vs) hv0
        · exact splitAll_not_mem sep cs v (h ▸ List.mem_cons_of_mem v0 hvs)

theorem splitAll_single {sep : Char} : ∀ {v : Str}, sep ∉ v → splitAll sep v = [v]
  | [], _ => rfl
  | c :: v, h => by
    have hc : ¬c = sep := fun hcs => h (hcs ▸ List.mem_cons_self c v)
    have hv : sep ∉ v := fun hm => h (List.mem_cons_of_mem c hm)
    rw [splitAll, if_neg hc, splitAll_single hv]

theorem splitAll_append {sep : Char} :
    ∀ {v : Str} (t : Str), sep ∉ v →
      splitAll sep (v ++ sep :: t) = v :: splitAll sep t
  | [], t, _ => by simp [splitAll]
  | c :: v, t, h => by
    have hc : ¬c = sep := fun hcs => h (hcs ▸ List.mem_cons_self c v)
    have hv : sep ∉ v := fun hm => h (List.mem_cons_of_mem c hm)
    rw [List.cons_append, splitAll, if_neg hc, splitAll_append t hv]

theorem splitAll_joinAll {sep : Char} :
    ∀ {vs : List Str}, vs ≠ [] → (∀ v ∈ vs, sep ∉ v) →
      splitAll sep (joinAll sep vs) = vs
  | [], h, _ => absurd rfl h
  | [v], _, hb => by
    rw [show joinAll sep [v] = v from rfl]
    exact splitAll_single (hb v (List.mem_singleton_self v))
  | v :: w :: vs, _, hb => by
    rw [show joinAll sep (v :: w :: vs) = v ++ sep :: joinAll sep (w :: vs) from rfl,
      splitAll_append _ (hb v (List.mem_cons_self v _)),
      splitAll_joinAll (List.cons_ne_nil w vs)
        (fun x hx => hb x (List.mem_cons_of_mem v hx))]

theorem dropPre_cons_eq (c : Char) (rest : Str) : dropPre c (c :: rest) = some rest := by
  simp [dropPre]

theorem dropPre_cons_ne {x c : Char} (rest : Str) (h : x ≠ c) :
    dropPre c (x :: rest) = none := by
  simp [dropPre, h]

theorem dropSuf_some {c : Char} {s t : Str} (h : dropSuf c s = some t) :
    t = s.dropLast ∧ s.getLast? = some c := by
  unfold dropSuf at h
  cases hl : s.getLast? with
  | none => simp only [hl] at h; cases h
  | some d =>
    simp only [hl] at h
    by_cases hd : d = c
    · rw [if_pos hd] at h
      injection h with h1
      exact ⟨h1.symm, by rw [hd]⟩
    · rw [if_neg hd] at h
      cases h

theorem dropSuf_none_getLast {c : Char} {s : Str} (h : dropSuf c s = none) :
    s.getLast? ≠ some c := by
  unfold dropSuf at h
  cases hl : s.getLast? with
  | none => intro hc; cases hc
  | some d =>
    simp only [hl] at h
    by_cases hd : d = c
    · rw [if_pos hd] at h
      cases h
    · intro hc
      injection hc with h1
      exact hd h1

theorem dropSuf_eq_none_of {c : Char} {s : Str} (h : s.getLast? ≠ some c) :
    dropSuf c s = none := by
  unfold dropSuf
  cases hl : s.getLast? with
  | none => simp only [hl]
  | some d =>
    simp only [hl]
    rw [if_neg ?_]
    intro hd
    exact h (hl ▸ hd ▸ rfl)

theorem head?_dropLast_imp {l : Str} {c : Char}
    (h : l.dropLast.head? = some c) : l.head? = some c := by
  cases l with
  | nil => cases h
  | cons x xs =>
    cases xs with
    | nil => cases h
    | cons y ys =>
      rw [List.dropLast_cons₂] at h
      rw [List.head?_cons] at h ⊢
      exact h

theorem head?_append_some {a t : Str} {c : Char} (h : a.head? = some c) :
    (a ++ t).head? = some c := by
  cases a with
  | nil => cases h
  | cons x xs => exact h

/-! ## Shape lemmas for `parseEquality` and `parseRule` -/

theorem parseEquality_no_eq {s : Str} (h : '=' ∉ s) :
    parseEquality s = (s, .notEqual, ['_']) := by
  unfold parseEquality
  rw [splitOnce_eq_none h]

theorem parseEquality_eq {tag : Str} (J : Str) (h : '=' ∉ tag)
    (h2 : tag.getLast? ≠ some '!') :
    parseEquality (tag ++ '=' :: J) = (tag, .equal, J) := by
  simp only [parseEquality, splitOnce_append J h, dropSuf_eq_none_of h2]

theorem parseEquality_neq {tag : Str} (J : Str) (h : '=' ∉ tag) :
    parseEquality ((tag ++ ['!']) ++ '=' :: J) = (tag, .notEqual, J) := by
  have h2 : '=' ∉ tag ++ ['!'] := by
    intro hm
    rcases List.mem_append.mp hm with hm1 | hm2
    · exact h hm1
    · exact absurd (List.mem_singleton.mp hm2) (by decide)
  simp only [parseEquality, splitOnce_append J h2, dropSuf_concat]

/-- The result of `parse_equality` when the tag part ends in `!`. -/
theorem parseEquality_some_some {r a b t : Str}
    (hs : splitOnce '=' r = some (a, b)) (hd : dropSuf '!' a = some t) :
    parseEquality r = (t, .notEqual, b) := by
  simp only [parseEquality, hs, hd]

/-- The result of `parse_equality` when the tag part does not end in `!`. -/
theorem parseEquality_some_none {r a b : Str}
    (hs : splitOnce '=' r = some (a, b)) (hd : dropSuf '!' a = none) :
    parseEquality r = (a, .equal, b) := by
  simp only [parseEquality, hs, hd]

/-- The tag produced by `parse_equality`, when non-empty, starts with the
first character of the input. -/
theorem parseEquality_head (r : Str) {c : Char}
    (h : (parseEquality r).1.head? = some c) : r.head? = some c := by
  cases hs : splitOnce '=' r with
  | none =>
    rw [parseEquality_no_eq (splitOnce_none_not_mem hs)] at h
    exact h
  | some ab =>
    obtain ⟨a, b⟩ := ab
    obtain ⟨hna, hr⟩ := splitOnce_some hs
    cases hd : dropSuf '!' a with
    | some t =>
      rw [parseEquality_some_some hs hd] at h
      obtain ⟨rfl, -⟩ := dropSuf_some hd
      rw [hr]
      exact head?_append_some (head?_dropLast_imp h)
    | none =>
      rw [parseEquality_some_none hs hd] at h
      rw [hr]
      exact head?_append_some h

/-- The tag produced by `parse_equality` contains no `=`; when the
equality is `eq` it does not end in `!`. -/
theorem parseEquality_tag_shape (r : Str) :
    '=' ∉ (parseEquality r).1 ∧
      ((parseEquality r).2.1 = .equal →
        (parseEquality r).1.getLast? ≠ some '!') := by
  cases hs : splitOnce '=' r with
  | none =>
    rw [parseEquality_no_eq (splitOnce_none_not_mem hs)]
    exact ⟨splitOnce_none_not_mem hs, fun he => by cases he⟩
  | some ab =>
    obtain ⟨a, b⟩ := ab
    obtain ⟨hna, -⟩ := splitOnce_some hs
    cases hd : dropSuf '!' a with
    | some t =>
      rw [parseEquality_some_some hs hd]
      obtain ⟨rfl, -⟩ := dropSuf_some hd
      exact ⟨fun hm => hna ((List.dropLast_sublist _).subset hm), fun he => by cases he⟩
    | none =>
      rw [parseEquality_some_none hs hd]
      exact ⟨hna, fun _ => dropSuf_none_getLast hd⟩

theorem parseRule_dot (rest : Str) :
    parseRule ('.' :: rest) = (.yes, .yes, .mvtString, rest) := by
  simp [parseRule, dropPre]

theorem parseRule_question (rest : Str) :
    parseRule ('?' :: rest) = (.no, .yes, .mvtString, rest) := by
  simp [parseRule, dropPre]

theorem parseRule_dollar (rest : Str) :
    parseRule ('$' :: rest) = (.no, .yes, .mvtSint, rest) := by
  simp [parseRule, dropPre]

theorem parseRule_default {s : Str}
    (h : ∀ c, s.head? = some c → c ≠ '.' ∧ c ≠ '?' ∧ c ≠ '$') :
    parseRule s = (.yes, .no, .mvtString, s) := by
  cases s with
  | nil => rfl
  | cons c cs =>
    obtain ⟨h1, h2, h3⟩ := h c rfl
    simp only [parseRule, dropPre_cons_ne cs h1, dropPre_cons_ne cs h2,
      dropPre_cons_ne cs h3]

/-- `parse` is the record of the `parse_rule` and `parse_equality`
pieces. -/
theorem parse_fields (p : Str) :
    TagPattern.parse p =
      ⟨(parseRule p).1, (parseRule p).2.1, (parseRule p).2.2.1,
        (parseEquality (parseRule p).2.2.2).1,
        (parseEquality (parseRule p).2.2.2).2.1,
        parseValues (parseEquality (parseRule p).2.2.2).2.2⟩ := rfl

/-- The four outcomes of `parse_rule`. -/
theorem parseRule_spec (p : Str) :
    (parseRule p = (.yes, .yes, .mvtString, p.tail) ∧ p.head? = some '.') ∨
    (parseRule p = (.no, .yes, .mvtString, p.tail) ∧ p.head? = some '?') ∨
    (parseRule p = (.no, .yes, .mvtSint, p.tail) ∧ p.head? = some '$') ∨
    (parseRule p = (.yes, .no, .mvtString, p) ∧
      ∀ c, p.head? = some c → c ≠ '.' ∧ c ≠ '?' ∧ c ≠ '$') := by
  cases p with
  | nil =>
    right; right; right
    exact ⟨rfl, fun c hc => by cases hc⟩
  | cons c cs =>
    by_cases h1 : c = '.'
    · subst h1
      left
      exact ⟨by rw [parseRule_dot, List.tail_cons], rfl⟩
    · by_cases h2 : c = '?'
      · subst h2
        right; left
        exact ⟨by rw [parseRule_question, List.tail_cons], rfl⟩
      · by_cases h3 : c = '$'
        · subst h3
          right; right; left
          exact ⟨by rw [parseRule_dollar, List.tail_cons], rfl⟩
        · right; right; right
          refine ⟨parseRule_default ?_, ?_⟩ <;>
            (intro d hd
             rw [List.head?_cons] at hd
             injection hd with h4
             subst h4
             exact ⟨h1, h2, h3⟩)

/-- The invariants of every pattern in the image of `TagPattern::parse`:
the tag holds no `=` and, under `eq`, no final `!`; the values are a
non-empty list of `|`-free strings; the rule triple is one of the four
produced by `parse_rule`; and a pattern with no lead character has a tag
not starting with one. -/
theorem parse_shape (p : Str) :
    '=' ∉ (TagPattern.parse p).tag ∧
    ((TagPattern.parse p).equality = .equal →
      (TagPattern.parse p).tag.getLast? ≠ some '!') ∧
    (TagPattern.parse p).values ≠ [] ∧
    (∀ v ∈ (TagPattern.parse p).values, '|' ∉ v) ∧
    (((TagPattern.parse p).must_match = .yes ∧
        (TagPattern.parse p).includeValue = .no ∧
        (TagPattern.parse p).feature_type = .mvtString) ∨
     ((TagPattern.parse p).must_match = .yes ∧
        (TagPattern.parse p).includeValue = .yes ∧
        (TagPattern.parse p).feature_type = .mvtString) ∨
     ((TagPattern.parse p).must_match = .no ∧
        (TagPattern.parse p).includeValue = .yes ∧
        (TagPattern.parse p).feature_type = .mvtString) ∨
     ((TagPattern.parse p).must_match = .no ∧
        (TagPattern.parse p).includeValue = .yes ∧
        (TagPattern.parse p).feature_type = .mvtSint)) ∧
    ((TagPattern.parse p).must_match = .yes ∧
        (TagPattern.parse p).includeValue = .no →
      ∀ c, (TagPattern.parse p).tag.head? = some c →
        c ≠ '.' ∧ c ≠ '?' ∧ c ≠ '$') := by
  obtain ⟨hts, hts2⟩ := parseEquality_tag_shape (parseRule p).2.2.2
  have hmm : (TagPattern.parse p).must_match = (parseRule p).1 := rfl
  have hinc : (TagPattern.parse p).includeValue = (parseRule p).2.1 := rfl
  have hft : (TagPattern.parse p).feature_type = (parseRule p).2.2.1 := rfl
  have htag : (TagPattern.parse p).tag =
      (parseEquality (parseRule p).2.2.2).1 := rfl
  have heq : (TagPattern.parse p).equality =
      (parseEquality (parseRule p).2.2.2).2.1 := rfl
  have hval : (TagPattern.parse p).values =
      parseValues (parseEquality (parseRule p).2.2.2).2.2 := rfl
  refine ⟨htag ▸ hts, fun he => htag ▸ hts2 (heq ▸ he), hval ▸ splitAll_ne_nil _ _,
    fun v hv => splitAll_not_mem _ _ v (hval ▸ hv), ?_, ?_⟩
  · rcases parseRule_spec p with ⟨hr, -⟩ | ⟨hr, -⟩ | ⟨hr, -⟩ | ⟨hr, -⟩
    · right; left
      rw [hmm, hinc, hft, hr]
      exact ⟨rfl, rfl, rfl⟩
    · right; right; left
      rw [hmm, hinc, hft, hr]
      exact ⟨rfl, rfl, rfl⟩
    · right; right; right
      rw [hmm, hinc, hft, hr]
      exact ⟨rfl, rfl, rfl⟩
    · left
      rw [hmm, hinc, hft, hr]
      exact ⟨rfl, rfl, rfl⟩
  · rintro ⟨hy, hn⟩ c hc
    rcases parseRule_spec p with ⟨hr, -⟩ | ⟨hr, -⟩ | ⟨hr, -⟩ | ⟨hr, hcs⟩
    · rw [hinc, hr] at hn
      cases hn
    · rw [hmm, hr] at hy
      cases hy
    · rw [hmm, hr] at hy
      cases hy
    · have hh := parseEquality_head (parseRule p).2.2.2 (htag ▸ hc)
      rw [hr] at hh
      exact hcs c hh

/-- Reparsing the formatted pattern recovers any pattern satisfying the
`parse`-image invariants, unless the pattern prints as the bare-tag
shorthand while holding further values after `_`. -/
theorem parse_fmt_of_shape (t : TagPattern)
    (htag : '=' ∉ t.tag)
    (hbang : t.equality = .equal → t.tag.getLast? ≠ some '!')
    (hvne : t.values ≠ [])
    (hbar : ∀ v ∈ t.values, '|' ∉ v)
    (hcombo : (t.must_match = .yes ∧ t.includeValue = .no ∧
        t.feature_type = .mvtString) ∨
      (t.must_match = .yes ∧ t.includeValue = .yes ∧
        t.feature_type = .mvtString) ∨
      (t.must_match = .no ∧ t.includeValue = .yes ∧
        t.feature_type = .mvtString) ∨
      (t.must_match = .no ∧ t.includeValue = .yes ∧
        t.feature_type = .mvtSint))
    (hhead : t.must_match = .yes ∧ t.includeValue = .no →
      ∀ c, t.tag.head? = some c → c ≠ '.' ∧ c ≠ '?' ∧ c ≠ '$')
    (hbad : ¬(t.equality = .notEqual ∧ t.values.head? = some ['_'] ∧
      t.values ≠ [['_']])) :
    TagPattern.parse t.fmt = t := by
  obtain ⟨mm, inc, ft, tag, eq, vals⟩ := t
  simp only at htag hbang hvne hbar hcombo hhead hbad
  by_cases hsh : eq = Equality.notEqual ∧ vals.head? = some ['_']
  · -- the shorthand branch of `fmt`
    obtain ⟨rfl, hhd⟩ := hsh
    have hv : vals = [['_']] := by
      by_contra hv2
      exact hbad ⟨rfl, hhd, hv2⟩
    subst hv
    rcases hcombo with ⟨rfl, rfl, rfl⟩ | ⟨rfl, rfl, rfl⟩ |
      ⟨rfl, rfl, rfl⟩ | ⟨rfl, rfl, rfl⟩
    · have hfmt : TagPattern.fmt
          ⟨.yes, .no, .mvtString, tag, .notEqual, [['_']]⟩ = tag := by
        rw [TagPattern.fmt, if_pos ⟨rfl, rfl⟩]
        simp [fmtRule]
      have hh := fun c hc => hhead ⟨rfl, rfl⟩ c hc
      rw [hfmt, parse_fields]
      simp only [parseRule_default hh, parseEquality_no_eq htag]
      rfl
    · have hfmt : TagPattern.fmt
          ⟨.yes, .yes, .mvtString, tag, .notEqual, [['_']]⟩ = '.' :: tag := by
        rw [TagPattern.fmt, if_pos ⟨rfl, rfl⟩]
        simp [fmtRule]
      rw [hfmt, parse_fields]
      simp only [parseRule_dot, parseEquality_no_eq htag]
      rfl
    · have hfmt : TagPattern.fmt
          ⟨.no, .yes, .mvtString, tag, .notEqual, [['_']]⟩ = '?' :: tag := by
        rw [TagPattern.fmt, if_pos ⟨rfl, rfl⟩]
        simp [fmtRule]
      rw [hfmt, parse_fields]
      simp only [parseRule_question, parseEquality_no_eq htag]
      rfl
    · have hfmt : TagPattern.fmt
          ⟨.no, .yes, .mvtSint, tag, .notEqual, [['_']]⟩ = '$' :: tag := by
        rw [TagPattern.fmt, if_pos ⟨rfl, rfl⟩]
        simp [fmtRule]
      rw [hfmt, parse_fields]
      simp only [parseRule_dollar, parseEquality_no_eq htag]
      rfl
  · -- the full branch of `fmt`
    have hJ : parseEquality (tag ++ (fmtEquality eq ++ joinAll '|' vals)) =
        (tag, eq, joinAll '|' vals) := by
      cases eq with
      | equal =>
        rw [show tag ++ (fmtEquality .equal ++ joinAll '|' vals) =
          tag ++ '=' :: joinAll '|' vals from rfl]
        exact parseEquality_eq _ htag (hbang rfl)
      | notEqual =>
        rw [show tag ++ (fmtEquality .notEqual ++ joinAll '|' vals) =
          (tag ++ ['!']) ++ '=' :: joinAll '|' vals by simp [fmtEquality]]
        exact parseEquality_neq _ htag
    have hvals : parseValues (joinAll '|' vals) = vals := by
      rw [parseValues]
      exact splitAll_joinAll hvne hbar
    rcases hcombo with ⟨rfl, rfl, rfl⟩ | ⟨rfl, rfl, rfl⟩ |
      ⟨rfl, rfl, rfl⟩ | ⟨rfl, rfl, rfl⟩
    · have hfmt : TagPattern.fmt ⟨.yes, .no, .mvtString, tag, eq, vals⟩ =
          tag ++ (fmtEquality eq ++ joinAll '|' vals) := by
        rw [TagPattern.fmt, if_neg hsh]
        simp [fmtRule]
      have hh : ∀ c, (tag ++ (fmtEquality eq ++ joinAll '|' vals)).head? =
          some c → c ≠ '.' ∧ c ≠ '?' ∧ c ≠ '$' := by
        intro c hc
        cases tag with
        | cons x xs =>
          rw [List.cons_append, List.head?_cons] at hc
          injection hc with h4
          subst h4
          exact hhead ⟨rfl, rfl⟩ x rfl
        | nil =>
          rw [List.nil_append] at hc
          cases eq with
          | equal =>
            rw [show fmtEquality .equal ++ joinAll '|' vals =
              '=' :: joinAll '|' vals from rfl, List.head?_cons] at hc
            injection hc with h4
            subst h4
            exact ⟨by decide, by decide, by decide⟩
          | notEqual =>
            rw [show fmtEquality .notEqual ++ joinAll '|' vals =
              '!' :: '=' :: joinAll '|' vals from rfl, List.head?_cons] at hc
            injection hc with h4
            subst h4
            exact ⟨by decide, by decide, by decide⟩
      rw [hfmt, parse_fields]
      simp only [parseRule_default hh, hJ, hvals]
    · have hfmt : TagPattern.fmt ⟨.yes, .yes, .mvtString, tag, eq, vals⟩ =
          '.' :: (tag ++ (fmtEquality eq ++ joinAll '|' vals)) := by
        rw [TagPattern.fmt, if_neg hsh]
        simp [fmtRule]
      rw [hfmt, parse_fields]
      simp only [parseRule_dot, hJ, hvals]
    · have hfmt : TagPattern.fmt ⟨.no, .yes, .mvtString, tag, eq, vals⟩ =
          '?' :: (tag ++ (fmtEquality eq ++ joinAll '|' vals)) := by
        rw [TagPattern.fmt, if_neg hsh]
        simp [fmtRule]
      rw [hfmt, parse_fields]
      simp only [parseRule_question, hJ, hvals]
    · have hfmt : TagPattern.fmt ⟨.no, .yes, .mvtSint, tag, eq, vals⟩ =
          '$' :: (tag ++ (fmtEquality eq ++ joinAll '|' vals)) := by
        rw [TagPattern.fmt, if_neg hsh]
        simp [fmtRule]
      rw [hfmt, parse_fields]
      simp only [parseRule_dollar, hJ, hvals]

/-! ## C9: pattern round trip -/

/-- C9 counterexample: the well-formed pattern `name!=_|x` parses with
value list `[_ , x]`, but formats to the bare shorthand `name`, whose
reparse has value list `[_]` — the round trip loses the values after
`_`. -/
theorem fmt_parse_counterexample :
    (TagPattern.parse "name!=_|x".data).fmt = "name".data ∧
      (TagPattern.parse "name!=_|x".data).values = [['_'], ['x']] ∧
      (TagPattern.parse ((TagPattern.parse "name!=_|x".data).fmt)).values =
        [['_']] ∧
      TagPattern.parse ((TagPattern.parse "name!=_|x".data).fmt) ≠
        TagPattern.parse "name!=_|x".data := by
  refine ⟨rfl, rfl, rfl, by decide⟩

/-- C9 (amended): for every well-formed pattern string `p`, formatting the
parsed pattern reparses to the same five-field record — except when the
parsed pattern has equality `neq` and a value list starting with `_`
followed by further values, which formats to the bare-tag shorthand and
drops those values. -/
theorem parse_fmt_roundtrip (p : Str)
    (h : ¬((TagPattern.parse p).equality = .notEqual ∧
      (TagPattern.parse p).values.head? = some ['_'] ∧
      (TagPattern.parse p).values ≠ [['_']])) :
    TagPattern.parse (TagPattern.parse p).fmt = TagPattern.parse p := by
  obtain ⟨h1, h2, h3, h4, h5, h6⟩ := parse_shape p
  exact parse_fmt_of_shape _ h1 h2 h3 h4 h5 h6 h

/-- C9 witness: the round trip evaluated on the concrete pattern
`.name=a|b`. -/
theorem parse_fmt_roundtrip_witness :
    TagPattern.parse (TagPattern.parse ".name=a|b".data).fmt =
      TagPattern.parse ".name=a|b".data :=
  parse_fmt_roundtrip ".name=a|b".data (by decide)

/-! ## Helper lemmas for the ring-assembly proofs: `swap_remove` and the
index searches -/

theorem swapRemove_cons {α : Type} (x y : α) (ys : List α) (j : Nat) :
    swapRemove (x :: y :: ys) (j + 1) = x :: swapRemove (y :: ys) j := by
  obtain ⟨a, hg⟩ : ∃ a, (y :: ys).getLast? = some a :=
    ⟨_, List.getLast?_eq_getLast _ (List.cons_ne_nil y ys)⟩
  unfold swapRemove
  simp only [List.getLast?_cons_cons, hg]
  by_cases hj : j + 1 = (y :: ys).length
  · rw [if_pos (by simp [hj]), if_pos hj, List.dropLast_cons₂]
  · have h2 : ¬(j + 1 + 1 = (x :: y :: ys).length) := by
      simp only [List.length_cons] at hj ⊢
      omega
    rw [if_neg h2, if_neg hj, List.dropLast_cons₂]
    rfl

theorem swapRemove_perm {α : Type} :
    ∀ (l : List α) (j : Nat), j < l.length → (swapRemove l j).Perm (l.eraseIdx j)
  | [], j, h => by cases h
  | [x], 0, _ => by rfl
  | [x], j + 1, h => by
    exact absurd h (by simp)
  | x :: y :: ys, 0, _ => by
    obtain ⟨a, hg⟩ : ∃ a, (y :: ys).getLast? = some a :=
      ⟨_, List.getLast?_eq_getLast _ (List.cons_ne_nil y ys)⟩
    have hsw : swapRemove (x :: y :: ys) 0 = a :: (y :: ys).dropLast := by
      unfold swapRemove
      simp only [List.getLast?_cons_cons, hg]
      rw [if_neg (by simp only [List.length_cons]; omega), List.dropLast_cons₂]
      rfl
    rw [hsw, List.eraseIdx_cons_zero]
    have hys : (y :: ys).dropLast ++ [a] = y :: ys :=
      List.dropLast_append_getLast? a hg
    have hp : (a :: (y :: ys).dropLast).Perm ((y :: ys).dropLast ++ [a]) :=
      (List.perm_append_singleton a _).symm
    rw [hys] at hp
    exact hp
  | x :: y :: ys, j + 1, h => by
    rw [swapRemove_cons, List.eraseIdx_cons_succ]
    exact (swapRemove_perm (y :: ys) j (by simpa using h)).cons x

theorem perm_getD_cons_eraseIdx {α : Type} (d : α) :
    ∀ (l : List α) (i : Nat), i < l.length →
      l.Perm (l.getD i d :: l.eraseIdx i)
  | [], i, h => by cases h
  | x :: xs, 0, _ => by
    rw [List.getD_cons_zero, List.eraseIdx_cons_zero]
  | x :: xs, i + 1, h => by
    rw [List.getD_cons_succ, List.eraseIdx_cons_succ]
    have hp := perm_getD_cons_eraseIdx d xs i (by simpa using h)
    exact (hp.cons x).trans (List.Perm.swap _ _ _)

theorem set_perm_cons_eraseIdx {α : Type} (v : α) :
    ∀ (l : List α) (i : Nat), i < l.length →
      (l.set i v).Perm (v :: l.eraseIdx i)
  | [], i, h => by cases h
  | x :: xs, 0, _ => by
    rw [List.set_cons_zero, List.eraseIdx_cons_zero]
  | x :: xs, i + 1, h => by
    rw [List.set_cons_succ, List.eraseIdx_cons_succ]
    have hp := set_perm_cons_eraseIdx v xs i (by simpa using h)
    exact (hp.cons x).trans (List.Perm.swap _ _ _)

theorem findJ_some {a : List Int} :
    ∀ {rest : List (List Int)} {j : Nat}, findJ a rest = some j →
      j < rest.length ∧ shares a (rest.getD j []) = true
  | [], j, h => by cases h
  | b :: bs, j, h => by
    by_cases hs : shares a b = true
    · rw [findJ, if_pos hs] at h
      injection h with h1
      subst h1
      exact ⟨by simp, by simpa [List.getD_cons_zero] using hs⟩
    · rw [findJ, if_neg hs] at h
      obtain ⟨j', hj', rfl⟩ := Option.map_eq_some'.mp h
      obtain ⟨hlt, hsh⟩ := findJ_some hj'
      exact ⟨by simpa using hlt, by simpa [List.getD_cons_succ] using hsh⟩

theorem findIJ_some :
    ∀ {ways : List (List Int)} {i j : Nat}, findIJ ways = some (i, j) →
      i < j ∧ j < ways.length ∧
        shares (ways.getD i []) (ways.getD j []) = true
  | [], _, _, h => by cases h
  | a :: rest, i, j, h => by
    cases hj : findJ a rest with
    | some j' =>
      rw [findIJ, hj] at h
      injection h with h1
      rw [Prod.mk.injEq] at h1
      obtain ⟨rfl, rfl⟩ := h1
      obtain ⟨hlt, hsh⟩ := findJ_some hj
      exact ⟨by omega, by simpa using hlt,
        by simpa [List.getD_cons_zero, List.getD_cons_succ] using hsh⟩
    | none =>
      rw [findIJ, hj] at h
      obtain ⟨⟨i', j'⟩, hij', hpair⟩ := Option.map_eq_some'.mp h
      simp only [Prod.mk.injEq] at hpair
      obtain ⟨rfl, rfl⟩ := hpair
      obtain ⟨h1, h2, h3⟩ := findIJ_some hij'
      exact ⟨by omega, by simpa using h2,
        by simpa [List.getD_cons_succ] using h3⟩

theorem findJ_none_iff {a : List Int} :
    ∀ {rest : List (List Int)}, findJ a rest = none ↔
      ∀ b ∈ rest, shares a b = false
  | [] => by simp [findJ]
  | b :: bs => by
    by_cases hs : shares a b = true
    · rw [findJ, if_pos hs]
      constructor
      · intro h
        cases h
      · intro h
        rw [h b (List.mem_cons_self b bs)] at hs
        cases hs
    · rw [findJ, if_neg hs, Option.map_eq_none', findJ_none_iff]
      constructor
      · intro h c hc
        rcases List.mem_cons.mp hc with rfl | hcs
        · exact Bool.eq_false_iff.mpr hs
        · exact h c hcs
      · intro h c hc
        exact h c (List.mem_cons_of_mem b hc)

theorem findIJ_none_iff :
    ∀ {ways : List (List Int)}, findIJ ways = none ↔
      ways.Pairwise (fun x y => shares x y = false)
  | [] => by simp [findIJ]
  | a :: rest => by
    cases hj : findJ a rest with
    | some j =>
      simp only [findIJ, hj]
      constructor
      · intro h
        cases h
      · intro h
        rw [List.pairwise_cons] at h
        have h2 := findJ_none_iff.mpr h.1
        rw [hj] at h2
        cases h2
    | none =>
      simp only [findIJ, hj, Option.map_eq_none']
      rw [findIJ_none_iff, List.pairwise_cons]
      exact ⟨fun h => ⟨findJ_none_iff.mp hj, h⟩, fun h => h.2⟩

theorem findRingIdx_some :
    ∀ {ways : List (List Int)} {i : Nat}, findRingIdx ways = some i →
      i < ways.length ∧
        (endPoints (ways.getD i [])).1 = (endPoints (ways.getD i [])).2
  | [], _, h => by cases h
  | w :: ws, i, h => by
    by_cases hc : (endPoints w).1 = (endPoints w).2
    · rw [findRingIdx, if_pos hc] at h
      injection h with h1
      subst h1
      exact ⟨by simp, by simpa [List.getD_cons_zero] using hc⟩
    · rw [findRingIdx, if_neg hc] at h
      obtain ⟨i', hi', rfl⟩ := Option.map_eq_some'.mp h
      obtain ⟨hlt, hcl⟩ := findRingIdx_some hi'
      exact ⟨by simpa using hlt, by simpa [List.getD_cons_succ] using hcl⟩

theorem findRingIdx_none_iff :
    ∀ {ways : List (List Int)}, findRingIdx ways = none ↔
      ∀ w ∈ ways, ¬(endPoints w).1 = (endPoints w).2
  | [] => by simp [findRingIdx]
  | w :: ws => by
    by_cases hc : (endPoints w).1 = (endPoints w).2
    · rw [findRingIdx, if_pos hc]
      constructor
      · intro h
        cases h
      · intro h
        exact absurd hc (h w (List.mem_cons_self w ws))
    · rw [findRingIdx, if_neg hc, Option.map_eq_none', findRingIdx_none_iff]
      constructor
      · intro h x hx
        rcases List.mem_cons.mp hx with rfl | hxs
        · exact hc
        · exact h x hxs
      · intro h x hx
        exact h x (List.mem_cons_of_mem w hx)

theorem findRing_some {ways rest : List (List Int)} {ring : List Int}
    (h : findRing ways = some (ring, rest)) :
    ways.Perm (ring :: rest) ∧ (endPoints ring).1 = (endPoints ring).2 ∧
      ring ∈ ways := by
  unfold findRing at h
  cases hi : findRingIdx ways with
  | none => rw [hi] at h; cases h
  | some i =>
    simp only [hi] at h
    injection h with h1
    rw [Prod.mk.injEq] at h1
    obtain ⟨rfl, rfl⟩ := h1
    obtain ⟨hlt, hcl⟩ := findRingIdx_some hi
    have hperm1 := perm_getD_cons_eraseIdx ([] : List Int) ways i hlt
    have hperm2 := swapRemove_perm ways i hlt
    exact ⟨hperm1.trans ((hperm2.symm).cons _), hcl,
      hperm1.mem_iff.mpr (List.mem_cons_self _ _)⟩

theorem findRing_none_iff {ways : List (List Int)} :
    findRing ways = none ↔ findRingIdx ways = none := by
  unfold findRing
  cases h : findRingIdx ways <;> simp

theorem shares_symm_false {a b : List Int} (h : shares a b = false) :
    shares b a = false := by
  rw [shares, decide_eq_false_iff_not] at h ⊢
  intro hor
  apply h
  rcases hor with h1 | h1 | h1 | h1
  · exact Or.inl h1.symm
  · exact Or.inr (Or.inr (Or.inl h1.symm))
  · exact Or.inr (Or.inl h1.symm)
  · exact Or.inr (Or.inr (Or.inr h1.symm))

theorem endPoints_reverse (w : List Int) :
    endPoints w.reverse = ((endPoints w).2, (endPoints w).1) := by
  unfold endPoints
  rw [List.head?_reverse, List.getLast?_reverse]

theorem endCount2_reverse (n : Int) (w : List Int) :
    endCount2 n w.reverse = endCount2 n w := by
  unfold endCount2
  rw [List.head?_reverse, List.getLast?_reverse, add_comm]

theorem head?_dropLast_of_two {l : List Int} (h : 2 ≤ l.length) :
    l.dropLast.head? = l.head? := by
  cases l with
  | nil => cases h
  | cons x xs =>
    cases xs with
    | nil => simp at h
    | cons y ys => rw [List.dropLast_cons₂, List.head?_cons, List.head?_cons]

theorem swapRemove_getD_lt {α : Type} (d : α) (l : List α) {i j : Nat}
    (hij : i < j) (hj : j < l.length) :
    (swapRemove l j).getD i d = l.getD i d := by
  obtain ⟨a, hg⟩ : ∃ a, l.getLast? = some a :=
    ⟨_, List.getLast?_eq_getLast _ (by rintro rfl; simp at hj)⟩
  have hlen2 : 2 ≤ l.length := by omega
  have hdl : l.dropLast.length = l.length - 1 := List.length_dropLast l
  unfold swapRemove
  simp only [hg]
  by_cases hjl : j + 1 = l.length
  · rw [if_pos hjl]
    have hi1 : i < l.dropLast.length := by omega
    have hi2 : i < l.length := by omega
    rw [List.getD_eq_getElem _ d hi1, List.getD_eq_getElem _ d hi2,
      List.getElem_dropLast]
  · rw [if_neg hjl]
    have hi1 : i < (l.dropLast.set j a).length := by
      rw [List.length_set]
      omega
    have hi1' : i < l.dropLast.length := by omega
    have hi2 : i < l.length := by omega
    rw [List.getD_eq_getElem _ d hi1, List.getD_eq_getElem _ d hi2,
      List.getElem_set_ne (by omega), List.getElem_dropLast]

/-- The reversal dance of `connect_ways` establishes its `assert_eq`:
after the optional reversals the joined endpoints coincide. -/
theorem mergeWays_joint {a b : List Int} (hs : shares a b = true) :
    ∃ a2 b2, (a2 = a ∨ a2 = a.reverse) ∧ (b2 = b ∨ b2 = b.reverse) ∧
      mergeWays a b = a2.dropLast ++ b2 ∧
      (endPoints a2).2 = (endPoints b2).1 := by
  rw [shares, decide_eq_true_eq] at hs
  unfold mergeWays
  by_cases h1 : (endPoints a).2 ≠ (endPoints b).1 ∧ (endPoints a).2 ≠ (endPoints b).2
  · have ha0 : (endPoints a.reverse).2 = (endPoints a).1 := by
      rw [endPoints_reverse]
    by_cases h2 : (endPoints b).2 = (endPoints a.reverse).2
    · simp only [if_pos h1, if_pos h2]
      refine ⟨a.reverse, b.reverse, Or.inr rfl, Or.inr rfl, rfl, ?_⟩
      rw [endPoints_reverse b]
      exact h2.symm
    · simp only [if_pos h1, if_neg h2]
      refine ⟨a.reverse, b, Or.inr rfl, Or.inl rfl, rfl, ?_⟩
      rw [ha0] at h2 ⊢
      rcases hs with h3 | h3 | h3 | h3
      · exact h3
      · exact absurd h3 (fun h4 => h2 h4.symm)
      · exact absurd h3 h1.1
      · exact absurd h3 h1.2
  · by_cases h2 : (endPoints b).2 = (endPoints a).2
    · simp only [if_neg h1, if_pos h2]
      refine ⟨a, b.reverse, Or.inl rfl, Or.inr rfl, rfl, ?_⟩
      rw [endPoints_reverse b]
      exact h2.symm
    · simp only [if_neg h1, if_neg h2]
      refine ⟨a, b, Or.inl rfl, Or.inl rfl, rfl, ?_⟩
      rw [not_and_or, not_not, not_not] at h1
      rcases h1 with h3 | h3
      · exact h3
      · exact absurd h3 (fun h4 => h2 h4.symm)

theorem zmod2_add_self (x : ZMod 2) : x + x = 0 := by revert x; decide

theorem endSum2_cons (n : Int) (w : List Int) (ws : List (List Int)) :
    endSum2 n (w :: ws) = endCount2 n w + endSum2 n ws := by
  unfold endSum2
  rw [List.map_cons, List.sum_cons]

theorem endSum2_append (n : Int) (xs ys : List (List Int)) :
    endSum2 n (xs ++ ys) = endSum2 n xs + endSum2 n ys := by
  unfold endSum2
  rw [List.map_append, List.sum_append]

theorem endSum2_perm (n : Int) {xs ys : List (List Int)} (h : xs.Perm ys) :
    endSum2 n xs = endSum2 n ys :=
  (h.map (endCount2 n)).sum_eq

/-- Merging two endpoint-sharing ways keeps at least two nodes and — since
the duplicated joint node disappears — preserves endpoint parity. -/
theorem mergeWays_spec {a b : List Int} (ha : 2 ≤ a.length) (hb : 2 ≤ b.length)
    (hs : shares a b = true) :
    2 ≤ (mergeWays a b).length ∧
      ∀ n, endCount2 n (mergeWays a b) = endCount2 n a + endCount2 n b := by
  obtain ⟨a2, b2, ha2, hb2, hm, hj⟩ := mergeWays_joint hs
  have ha2len : a2.length = a.length := by
    rcases ha2 with rfl | rfl
    · rfl
    · exact List.length_reverse a
  have hb2len : b2.length = b.length := by
    rcases hb2 with rfl | rfl
    · rfl
    · exact List.length_reverse b
  have ha2two : 2 ≤ a2.length := ha2len ▸ ha
  have hb2two : 2 ≤ b2.length := hb2len ▸ hb
  have ha2ne : a2 ≠ [] := by
    rintro rfl
    simp at ha2two
  have hb2ne : b2 ≠ [] := by
    rintro rfl
    simp at hb2two
  have hdlne : a2.dropLast ≠ [] := by
    rw [← List.length_pos, List.length_dropLast]
    omega
  have hcnta : ∀ n, endCount2 n a2 = endCount2 n a := by
    intro n
    rcases ha2 with rfl | rfl
    · rfl
    · exact endCount2_reverse n a
  have hcntb : ∀ n, endCount2 n b2 = endCount2 n b := by
    intro n
    rcases hb2 with rfl | rfl
    · rfl
    · exact endCount2_reverse n b
  constructor
  · rw [hm, List.length_append, List.length_dropLast]
    omega
  · intro n
    rw [hm, ← hcnta n, ← hcntb n]
    obtain ⟨la, hla⟩ : ∃ x, a2.getLast? = some x :=
      ⟨_, List.getLast?_eq_getLast _ ha2ne⟩
    obtain ⟨hb0, hhb⟩ : ∃ x, b2.head? = some x :=
      ⟨_, List.head?_eq_head hb2ne⟩
    have hjoint : la = hb0 := by
      unfold endPoints at hj
      rw [hla, hhb] at hj
      exact hj
    subst hjoint
    unfold endCount2
    rw [List.head?_append_of_ne_nil _ hdlne, head?_dropLast_of_two ha2two,
      List.getLast?_append_of_ne_nil _ hb2ne, hla, hhb]
    exact (by decide : ∀ A X D : ZMod 2, A + D = (A + X) + (X + D)) _ _ _

theorem connectWays_none {ways : List (List Int)}
    (h : connectWays ways = none) : findIJ ways = none := by
  unfold connectWays at h
  cases hij : findIJ ways with
  | none => rfl
  | some ij =>
    obtain ⟨i, j⟩ := ij
    simp only [hij] at h
    cases h

/-- The structural content of one `connect_ways` step: two endpoint-sharing
ways of the working collection are replaced by their merge. -/
theorem connectWays_perm {ways w : List (List Int)}
    (h : connectWays ways = some w) :
    ∃ a b rest, shares a b = true ∧ a ∈ ways ∧ b ∈ ways ∧
      ways.Perm (a :: b :: rest) ∧ w.Perm (mergeWays a b :: rest) := by
  unfold connectWays at h
  cases hij : findIJ ways with
  | none => rw [hij] at h; cases h
  | some ij =>
    obtain ⟨i, j⟩ := ij
    simp only [hij] at h
    injection h with h1
    obtain ⟨hlt, hjlen, hsh⟩ := findIJ_some hij
    have hSlen : (swapRemove ways j).length = ways.length - 1 :=
      (swapRemove_perm ways j hjlen).length_eq.trans
        (List.length_eraseIdx_of_lt hjlen)
    have hiS : i < (swapRemove ways j).length := by omega
    have hSi : (swapRemove ways j).getD i [] = ways.getD i [] :=
      swapRemove_getD_lt [] ways hlt hjlen
    refine ⟨ways.getD i [], ways.getD j [],
      (swapRemove ways j).eraseIdx i, hsh, ?_, ?_, ?_, ?_⟩
    · rw [List.getD_eq_getElem _ _ (by omega : i < ways.length)]
      exact List.getElem_mem _
    · rw [List.getD_eq_getElem _ _ hjlen]
      exact List.getElem_mem _
    · have p1 : ways.Perm (ways.getD j [] :: ways.eraseIdx j) :=
        perm_getD_cons_eraseIdx [] ways j hjlen
      have p2 : (ways.eraseIdx j).Perm (swapRemove ways j) :=
        (swapRemove_perm ways j hjlen).symm
      have p3 : (swapRemove ways j).Perm
          (ways.getD i [] :: (swapRemove ways j).eraseIdx i) := by
        have hp := perm_getD_cons_eraseIdx [] (swapRemove ways j) i hiS
        rw [hSi] at hp
        exact hp
      exact (p1.trans ((p2.trans p3).cons _)).trans (List.Perm.swap _ _ _)
    · rw [← h1]
      exact set_perm_cons_eraseIdx _ (swapRemove ways j) i hiS

theorem connectWays_inv {ways w : List (List Int)}
    (h : connectWays ways = some w) (hlen : ∀ x ∈ ways, 2 ≤ x.length) :
    (∀ x ∈ w, 2 ≤ x.length) ∧ (∀ n, endSum2 n w = endSum2 n ways) ∧
      w.length + 1 = ways.length := by
  obtain ⟨a, b, rest, hsh, haw, hbw, hp1, hp2⟩ := connectWays_perm h
  obtain ⟨hmlen, hmcnt⟩ := mergeWays_spec (hlen a haw) (hlen b hbw) hsh
  refine ⟨?_, ?_, ?_⟩
  · intro x hx
    rcases List.mem_cons.mp (hp2.mem_iff.mp hx) with rfl | hxr
    · exact hmlen
    · exact hlen x (hp1.mem_iff.mpr
        (List.mem_cons_of_mem a (List.mem_cons_of_mem b hxr)))
  · intro n
    rw [endSum2_perm n hp2, endSum2_perm n hp1, endSum2_cons, endSum2_cons,
      endSum2_cons, hmcnt n]
    ring
  · rw [hp2.length_eq, hp1.length_eq]
    simp [List.length_cons]

theorem spliceF_inv : ∀ (fuel : Nat) (ways : List (List Int)),
    (∀ x ∈ ways, 2 ≤ x.length) →
    (∀ x ∈ spliceF fuel ways, 2 ≤ x.length) ∧
      ∀ n, endSum2 n (spliceF fuel ways) = endSum2 n ways
  | 0, ways, h => ⟨h, fun _ => rfl⟩
  | fuel + 1, ways, h => by
    by_cases hl : 1 < ways.length
    · cases hc : connectWays ways with
      | none =>
        rw [spliceF, if_pos hl]
        simp only [hc]
        exact ⟨h, fun _ => by trivial⟩
      | some w =>
        rw [spliceF, if_pos hl]
        simp only [hc]
        obtain ⟨hw, hn, -⟩ := connectWays_inv hc h
        obtain ⟨h1, h2⟩ := spliceF_inv fuel w hw
        exact ⟨h1, fun n => (h2 n).trans (hn n)⟩
    · rw [spliceF, if_neg hl]
      exact ⟨h, fun _ => rfl⟩

theorem spliceF_fix : ∀ (fuel : Nat) (ways : List (List Int)),
    ways.length ≤ fuel + 1 →
    (spliceF fuel ways).length ≤ 1 ∨ findIJ (spliceF fuel ways) = none
  | 0, ways, h => by
    rw [spliceF]
    exact Or.inl h
  | fuel + 1, ways, h => by
    by_cases hl : 1 < ways.length
    · cases hc : connectWays ways with
      | none =>
        rw [spliceF, if_pos hl]
        simp only [hc]
        exact Or.inr (connectWays_none hc)
      | some w =>
        rw [spliceF, if_pos hl]
        simp only [hc]
        apply spliceF_fix fuel w
        obtain ⟨a, b, rest, -, -, -, hp1, hp2⟩ := connectWays_perm hc
        have := hp1.length_eq
        have := hp2.length_eq
        simp only [List.length_cons] at *
        omega
    · rw [spliceF, if_neg hl]
      exact Or.inl (by omega)

theorem extractF_spec : ∀ (fuel : Nat) (ways : List (List Int)),
    ways.Perm ((extractF fuel ways).1 ++ (extractF fuel ways).2) ∧
      ∀ r ∈ (extractF fuel ways).1, (endPoints r).1 = (endPoints r).2
  | 0, ways => by
    rw [extractF]
    exact ⟨by simp, by simp⟩
  | fuel + 1, ways => by
    cases hf : findRing ways with
    | none =>
      rw [extractF]
      simp only [hf]
      exact ⟨by simp, by simp⟩
    | some rr =>
      obtain ⟨ring, rest⟩ := rr
      rw [extractF]
      simp only [hf]
      obtain ⟨hperm, hcl⟩ := extractF_spec fuel rest
      obtain ⟨hp, hc, -⟩ := findRing_some hf
      constructor
      · exact hp.trans (hperm.cons ring)
      · intro r hr
        rcases List.mem_cons.mp hr with rfl | hrr
        · exact hc
        · exact hcl r hrr

theorem extractF_none : ∀ (fuel : Nat) (ways : List (List Int)),
    ways.length ≤ fuel → findRingIdx (extractF fuel ways).2 = none
  | 0, ways, h => by
    have hw : ways = [] := List.length_eq_zero.mp (by omega)
    subst hw
    rfl
  | fuel + 1, ways, h => by
    cases hf : findRing ways with
    | none =>
      rw [extractF]
      simp only [hf]
      exact findRing_none_iff.mp hf
    | some rr =>
      obtain ⟨ring, rest⟩ := rr
      rw [extractF]
      simp only [hf]
      apply extractF_none fuel rest
      have hlen := (findRing_some hf).1.length_eq
      simp only [List.length_cons] at hlen
      omega

theorem pairwise_of_len_le_one {l : List (List Int)} (h : l.length ≤ 1) :
    l.Pairwise (fun x y => shares x y = false) := by
  cases l with
  | nil => exact List.Pairwise.nil
  | cons x xs =>
    cases xs with
    | nil => simp
    | cons y ys => simp at h

theorem endCount2_closed {r : List Int} (h2 : 2 ≤ r.length)
    (hc : (endPoints r).1 = (endPoints r).2) (n : Int) : endCount2 n r = 0 := by
  have hne : r ≠ [] := by
    rintro rfl
    simp at h2
  obtain ⟨x, hx⟩ : ∃ x, r.head? = some x := ⟨_, List.head?_eq_head hne⟩
  obtain ⟨y, hy⟩ : ∃ y, r.getLast? = some y :=
    ⟨_, List.getLast?_eq_getLast _ hne⟩
  have hxy : x = y := by
    unfold endPoints at hc
    rw [hx, hy] at hc
    exact hc
  subst hxy
  unfold endCount2
  rw [hx, hy]
  exact zmod2_add_self _

theorem closed_head_getLast {r : List Int} (h2 : 2 ≤ r.length)
    (hc : (endPoints r).1 = (endPoints r).2) : r.head? = r.getLast? := by
  have hne : r ≠ [] := by
    rintro rfl
    simp at h2
  obtain ⟨x, hx⟩ : ∃ x, r.head? = some x := ⟨_, List.head?_eq_head hne⟩
  obtain ⟨y, hy⟩ : ∃ y, r.getLast? = some y :=
    ⟨_, List.getLast?_eq_getLast _ hne⟩
  have hxy : x = y := by
    unfold endPoints at hc
    rw [hx, hy] at hc
    exact hc
  rw [hx, hy, hxy]

theorem wayNodes_two {objs : List OsmObj} {id : OsmId}
    (h : wayNodes objs id ≠ []) : 2 ≤ (wayNodes objs id).length := by
  unfold wayNodes at h ⊢
  cases hg : objGet objs id with
  | none =>
    simp only [hg] at h
    exact absurd rfl h
  | some o =>
    cases o with
    | node i t =>
      simp only [hg] at h
      exact absurd rfl h
    | rel i t r =>
      simp only [hg] at h
      exact absurd rfl h
    | way i t nodes =>
      simp only [hg] at h ⊢
      by_cases hn : 1 < nodes.length
      · rw [if_pos hn]
        omega
      · rw [if_neg hn] at h
        exact absurd rfl h

theorem endSum2_zero_of_closed {rs : List (List Int)}
    (h : ∀ r ∈ rs, (endPoints r).1 = (endPoints r).2 ∧ 2 ≤ r.length)
    (n : Int) : endSum2 n rs = 0 := by
  unfold endSum2
  apply List.sum_eq_zero
  intro x hx
  obtain ⟨r, hr, rfl⟩ := List.mem_map.mp hx
  exact endCount2_closed (h r hr).2 (h r hr).1 n

theorem cancels_spec {ways : List (List Int)} (h : cancels ways = true) :
    ∀ n, endSum2 n ways = 0 := by
  intro n
  by_cases hm : n ∈ endpointNodes ways
  · rw [cancels, List.all_eq_true] at h
    exact of_decide_eq_true (h n hm)
  · unfold endSum2
    apply List.sum_eq_zero
    intro x hx
    obtain ⟨w, hw, rfl⟩ := List.mem_map.mp hx
    have hh : ¬(w.head? = some n) := by
      intro hcon
      apply hm
      unfold endpointNodes
      rw [List.mem_flatMap]
      refine ⟨w, hw, ?_⟩
      have : (endPoints w).1 = n := by
        unfold endPoints
        rw [hcon]
        rfl
      rw [this]
      exact List.mem_cons_self _ _
    have hl : ¬(w.getLast? = some n) := by
      intro hcon
      apply hm
      unfold endpointNodes
      rw [List.mem_flatMap]
      refine ⟨w, hw, ?_⟩
      have : (endPoints w).2 = n := by
        unfold endPoints
        rw [hcon]
        rfl
      rw [this]
      exact List.mem_cons_of_mem _ (List.mem_cons_self _ _)
    unfold endCount2
    rw [if_neg hh, if_neg hl, add_zero]

theorem cancels_complete {ways : List (List Int)}
    (h : ∀ n, endSum2 n ways = 0) : cancels ways = true := by
  rw [cancels, List.all_eq_true]
  intro n _
  exact decide_eq_true (h n)

/-- A non-empty working collection of open, pairwise endpoint-disjoint
ways has odd endpoint parity at the head of its first way. -/
theorem endSum2_nonzero {F : List (List Int)} (hne : F ≠ [])
    (hlen : ∀ x ∈ F, 2 ≤ x.length)
    (hopen : ∀ x ∈ F, ¬(endPoints x).1 = (endPoints x).2)
    (hpw : F.Pairwise (fun x y => shares x y = false)) :
    ∃ n, endSum2 n F ≠ 0 := by
  obtain ⟨w, rest, rfl⟩ := List.exists_cons_of_ne_nil hne
  refine ⟨(endPoints w).1, ?_⟩
  rw [endSum2_cons]
  have hw2 := hlen w (List.mem_cons_self w rest)
  have hwne : w ≠ [] := by
    rintro rfl
    simp at hw2
  obtain ⟨x, hx⟩ : ∃ x, w.head? = some x := ⟨_, List.head?_eq_head hwne⟩
  obtain ⟨y, hy⟩ : ∃ y, w.getLast? = some y :=
    ⟨_, List.getLast?_eq_getLast _ hwne⟩
  have hE1 : (endPoints w).1 = x := by
    unfold endPoints
    rw [hx]
    rfl
  have hE2 : (endPoints w).2 = y := by
    unfold endPoints
    rw [hy]
    rfl
  have hxy : ¬x = y := by
    intro hcon
    apply hopen w (List.mem_cons_self w rest)
    rw [hE1, hE2, hcon]
  have hcw : endCount2 ((endPoints w).1) w = 1 := by
    unfold endCount2
    rw [hx, hy, hE1, if_pos rfl, if_neg ?_, add_zero]
    intro hcon
    injection hcon with h2
    exact hxy h2.symm
  have hrest : endSum2 ((endPoints w).1) rest = 0 := by
    unfold endSum2
    apply List.sum_eq_zero
    intro v hv
    obtain ⟨r, hr, rfl⟩ := List.mem_map.mp hv
    have hsh := (List.pairwise_cons.mp hpw).1 r hr
    rw [shares, decide_eq_false_iff_not] at hsh
    push_neg at hsh
    obtain ⟨h1, h2, h3, h4⟩ := hsh
    have hr2 := hlen r (List.mem_cons_of_mem w hr)
    have hrne : r ≠ [] := by
      rintro rfl
      simp at hr2
    obtain ⟨rx, hrx⟩ : ∃ z, r.head? = some z := ⟨_, List.head?_eq_head hrne⟩
    obtain ⟨ry, hry⟩ : ∃ z, r.getLast? = some z :=
      ⟨_, List.getLast?_eq_getLast _ hrne⟩
    have hR1 : (endPoints r).1 = rx := by
      unfold endPoints
      rw [hrx]
      rfl
    have hR2 : (endPoints r).2 = ry := by
      unfold endPoints
      rw [hry]
      rfl
    unfold endCount2
    rw [hrx, hry, if_neg ?_, if_neg ?_, add_zero]
    · intro hcon
      injection hcon with h5
      exact h2 (by rw [hR2, h5])
    · intro hcon
      injection hcon with h5
      exact h1 (by rw [hR1, h5])
  rw [hcw, hrest, add_zero]
  decide

theorem memberWays_cons (objs : List OsmObj) (rf : OsmRef)
    (refs : List OsmRef) :
    memberWays objs (rf :: refs) =
      memberWays objs [rf] ++ memberWays objs refs := by
  unfold memberWays
  rw [List.filterMap_cons, List.filterMap_cons]
  cases hrole : roleFlag rf.role with
  | none => simp
  | some b =>
    by_cases hn : wayNodes objs rf.member = [] <;> simp [hn]

/-- One member step of `rel_polygon` preserves the working-collection
invariants — at least two nodes per way, no completed ring left, pairwise
endpoint-disjointness — keeps all polygon rings closed, and adds exactly
the consumed member way's endpoints to the parity count. -/
theorem relStep_inv (objs : List OsmObj) (st : List (List Int) × Polygon)
    (rf : OsmRef)
    (h1 : ∀ x ∈ st.1, 2 ≤ x.length)
    (h2 : findRingIdx st.1 = none)
    (h3 : st.1.Pairwise (fun x y => shares x y = false))
    (h4 : ∀ r ∈ st.2.outer ++ st.2.inner,
      (endPoints r).1 = (endPoints r).2 ∧ 2 ≤ r.length) :
    (∀ x ∈ (relStep objs st rf).1, 2 ≤ x.length) ∧
    findRingIdx (relStep objs st rf).1 = none ∧
    (relStep objs st rf).1.Pairwise (fun x y => shares x y = false) ∧
    (∀ r ∈ (relStep objs st rf).2.outer ++ (relStep objs st rf).2.inner,
      (endPoints r).1 = (endPoints r).2 ∧ 2 ≤ r.length) ∧
    (∀ n, endSum2 n (relStep objs st rf).1 =
      endSum2 n st.1 + endSum2 n (memberWays objs [rf])) := by
  cases hrole : roleFlag rf.role with
  | none =>
    simp only [relStep, hrole]
    refine ⟨h1, h2, h3, h4, fun n => ?_⟩
    have hmw : memberWays objs [rf] = [] := by
      unfold memberWays
      rw [List.filterMap_cons, hrole]
      rfl
    rw [hmw]
    show endSum2 n st.1 = endSum2 n st.1 + 0
    rw [add_zero]
  | some outer =>
    by_cases hn : wayNodes objs rf.member = []
    · simp only [relStep, hrole, if_pos hn]
      refine ⟨h1, h2, h3, h4, fun n => ?_⟩
      have hmw : memberWays objs [rf] = [] := by
        unfold memberWays
        rw [List.filterMap_cons, hrole]
        simp [hn]
      rw [hmw]
      show endSum2 n st.1 = endSum2 n st.1 + 0
      rw [add_zero]
    · simp only [relStep, hrole, if_neg hn]
      have hmw : memberWays objs [rf] = [wayNodes objs rf.member] := by
        unfold memberWays
        rw [List.filterMap_cons, hrole]
        simp [hn]
      have hw1 : ∀ x ∈ st.1 ++ [wayNodes objs rf.member], 2 ≤ x.length := by
        intro x hx
        rcases List.mem_append.mp hx with hxs | hxn
        · exact h1 x hxs
        · rw [List.mem_singleton.mp hxn]
          exact wayNodes_two hn
      obtain ⟨hw2len, hw2sum⟩ :=
        spliceF_inv (st.1 ++ [wayNodes objs rf.member]).length
          (st.1 ++ [wayNodes objs rf.member]) hw1
      have hfix := spliceF_fix (st.1 ++ [wayNodes objs rf.member]).length
        (st.1 ++ [wayNodes objs rf.member]) (by omega)
      obtain ⟨hex, hexcl⟩ := extractF_spec
        (spliceF (st.1 ++ [wayNodes objs rf.member]).length
          (st.1 ++ [wayNodes objs rf.member])).length
        (spliceF (st.1 ++ [wayNodes objs rf.member]).length
          (st.1 ++ [wayNodes objs rf.member]))
      have hexn := extractF_none
        (spliceF (st.1 ++ [wayNodes objs rf.member]).length
          (st.1 ++ [wayNodes objs rf.member])).length
        (spliceF (st.1 ++ [wayNodes objs rf.member]).length
          (st.1 ++ [wayNodes objs rf.member])) (by omega)
      set ways1 := st.1 ++ [wayNodes objs rf.member] with hways1
      set ways2 := spliceF ways1.length ways1 with hways2
      set er := extractF ways2.length ways2 with her
      have hmem2 : ∀ x ∈ er.1 ++ er.2, 2 ≤ x.length := by
        intro x hx
        exact hw2len x (hex.mem_iff.mpr hx)
      have hpw2 : ways2.Pairwise (fun x y => shares x y = false) := by
        rcases hfix with hf1 | hf2
        · exact pairwise_of_len_le_one hf1
        · exact findIJ_none_iff.mp hf2
      have hpwapp : (er.1 ++ er.2).Pairwise (fun x y => shares x y = false) :=
        (hex.pairwise_iff (fun hxy => shares_symm_false hxy)).mp hpw2
      have hrings : ∀ r ∈ er.1,
          (endPoints r).1 = (endPoints r).2 ∧ 2 ≤ r.length := by
        intro r hr
        exact ⟨hexcl r hr, hmem2 r (List.mem_append.mpr (Or.inl hr))⟩
      refine ⟨?_, ?_, ?_, ?_, ?_⟩
      · intro x hx
        exact hmem2 x (List.mem_append.mpr (Or.inr hx))
      · exact hexn
      · exact hpwapp.sublist (List.sublist_append_right er.1 er.2)
      · intro r hr
        have hsplit : r ∈ st.2.outer ++ st.2.inner ∨ r ∈ er.1 := by
          cases outer with
          | true =>
            simp only [if_pos rfl] at hr
            rcases List.mem_append.mp hr with hro | hri
            · rcases List.mem_append.mp hro with hro1 | hro2
              · exact Or.inl (List.mem_append.mpr (Or.inl hro1))
              · exact Or.inr hro2
            · exact Or.inl (List.mem_append.mpr (Or.inr hri))
          | false =>
            simp only [Bool.false_eq_true, if_neg] at hr
            rcases List.mem_append.mp hr with hro | hri
            · exact Or.inl (List.mem_append.mpr (Or.inl hro))
            · rcases List.mem_append.mp hri with hri1 | hri2
              · exact Or.inl (List.mem_append.mpr (Or.inr hri1))
              · exact Or.inr hri2
        rcases hsplit with hold | hnew
        · exact h4 r hold
        · exact hrings r hnew
      · intro n
        have hs2 : endSum2 n (er.1 ++ er.2) = endSum2 n ways2 :=
          (endSum2_perm n hex).symm
        rw [endSum2_append] at hs2
        have hz : endSum2 n er.1 = 0 := endSum2_zero_of_closed hrings n
        rw [hz, zero_add] at hs2
        rw [hmw]
        show endSum2 n er.2 = endSum2 n st.1 +
          endSum2 n [wayNodes objs rf.member]
        rw [hs2, hw2sum n, hways1, endSum2_append]

/-- The full member fold of `rel_polygon`, from the empty state. -/
theorem relFold_inv (objs : List OsmObj) :
    ∀ (refs : List OsmRef) (st : List (List Int) × Polygon),
    (∀ x ∈ st.1, 2 ≤ x.length) →
    findRingIdx st.1 = none →
    st.1.Pairwise (fun x y => shares x y = false) →
    (∀ r ∈ st.2.outer ++ st.2.inner,
      (endPoints r).1 = (endPoints r).2 ∧ 2 ≤ r.length) →
    (∀ x ∈ (refs.foldl (relStep objs) st).1, 2 ≤ x.length) ∧
    findRingIdx (refs.foldl (relStep objs) st).1 = none ∧
    (refs.foldl (relStep objs) st).1.Pairwise
      (fun x y => shares x y = false) ∧
    (∀ r ∈ (refs.foldl (relStep objs) st).2.outer ++
        (refs.foldl (relStep objs) st).2.inner,
      (endPoints r).1 = (endPoints r).2 ∧ 2 ≤ r.length) ∧
    (∀ n, endSum2 n (refs.foldl (relStep objs) st).1 =
      endSum2 n st.1 + endSum2 n (memberWays objs refs))
  | [], st, h1, h2, h3, h4 => by
    refine ⟨h1, h2, h3, h4, fun n => ?_⟩
    show endSum2 n st.1 = endSum2 n st.1 + endSum2 n (memberWays objs [])
    rw [show memberWays objs [] = [] from rfl]
    show endSum2 n st.1 = endSum2 n st.1 + 0
    rw [add_zero]
  | rf :: refs, st, h1, h2, h3, h4 => by
    obtain ⟨g1, g2, g3, g4, g5⟩ := relStep_inv objs st rf h1 h2 h3 h4
    obtain ⟨k1, k2, k3, k4, k5⟩ :=
      relFold_inv objs refs (relStep objs st rf) g1 g2 g3 g4
    rw [List.foldl_cons]
    refine ⟨k1, k2, k3, k4, fun n => ?_⟩
    rw [k5 n, g5 n, memberWays_cons objs rf refs, endSum2_append]
    ring

/-! ## C1: ring-assembly closure -/

/-- C1 counterexample: six resolvable member ways forming a valid
multipolygon of exactly two simple rings — `1-2-3-1` and `2-5-6-2`,
touching at node 2, with all endpoints cancelling — are assembled by
`rel_polygon` into a single fused ring, not the two rings of the
multipolygon. -/
theorem relPolygon_counterexample :
    (memberWays exObjsTouching exRefsTouching).Perm
      ([[1, 2], [2, 3], [3, 1]] ++ [[2, 5], [5, 6], [6, 2]]) ∧
    chainsTo [[1, 2], [2, 3], [3, 1]] [1, 2, 3, 1] = true ∧
    chainsTo [[2, 5], [5, 6], [6, 2]] [2, 5, 6, 2] = true ∧
    simpleRing [1, 2, 3, 1] = true ∧
    simpleRing [2, 5, 6, 2] = true ∧
    cancels (memberWays exObjsTouching exRefsTouching) = true ∧
    relPolygon exObjsTouching exRefsTouching =
      some ⟨[[6, 5, 2, 1, 3, 2, 6]], []⟩ := by
  decide

/-- C1 (amended): for every relation whose `outer`/`inner` members each
resolve to a way of at least two nodes and whose member-way endpoints
cancel out, `rel_polygon` leaves the working collection empty and emits a
polygon in which every ring is closed (first node = last node); the rings
need not be exactly the multipolygon's rings — rings sharing a node can be
spliced into one. -/
theorem relPolygon_closure (objs : List OsmObj) (refs : List OsmRef)
    (hres : ∀ rf ∈ refs, roleFlag rf.role ≠ none →
      wayNodes objs rf.member ≠ [])
    (hpar : cancels (memberWays objs refs) = true) :
    (relFold objs refs).1 = [] ∧
    ∃ poly, relPolygon objs refs = some poly ∧
      ∀ r ∈ poly.outer ++ poly.inner, r.head? = r.getLast? ∧ 2 ≤ r.length := by
  obtain ⟨k1, k2, k3, k4, k5⟩ := relFold_inv objs refs ([], ⟨[], []⟩)
    (by simp) rfl List.Pairwise.nil (by simp)
  have hfold : refs.foldl (relStep objs) ([], ⟨[], []⟩) = relFold objs refs :=
    rfl
  rw [hfold] at k1 k2 k3 k4 k5
  have hempty : (relFold objs refs).1 = [] := by
    by_contra hne
    obtain ⟨n, hn⟩ := endSum2_nonzero hne k1 (findRingIdx_none_iff.mp k2) k3
    apply hn
    rw [k5 n]
    have hz : endSum2 n (([], (⟨[], []⟩ : Polygon)) :
        List (List Int) × Polygon).1 = 0 := rfl
    rw [hz, zero_add]
    exact cancels_spec hpar n
  refine ⟨hempty, (relFold objs refs).2, ?_, ?_⟩
  · rw [relPolygon, if_pos hempty]
  · intro r hr
    obtain ⟨hc, hlen2⟩ := k4 r hr
    exact ⟨closed_head_getLast hlen2 hc, hlen2⟩

/-- C1 witness: the amended statement evaluated on a relation whose two
open member ways assemble into the single ring `1-2-3-4-1`. -/
theorem relPolygon_closure_witness :
    (relFold exObjsRing exRefsRing).1 = [] ∧
    ∃ poly, relPolygon exObjsRing exRefsRing = some poly ∧
      ∀ r ∈ poly.outer ++ poly.inner, r.head? = r.getLast? ∧ 2 ≤ r.length :=
  relPolygon_closure exObjsRing exRefsRing (by decide) (by decide)

/-! ## C2: relations with missing member ways -/

/-- C2 counterexample: a relation whose second `outer` member way cannot
be resolved still emits a polygon — the resolvable first member is itself
a closed ring, so the working collection ends empty. -/
theorem relPolygon_missing_counterexample :
    (⟨"outer", .way 22⟩ : OsmRef) ∈ exRefsMissing ∧
    roleFlag "outer" ≠ none ∧
    wayNodes exObjsClosed (.way 22) = [] ∧
    relPolygon exObjsClosed exRefsMissing = some ⟨[[1, 2, 1]], []⟩ ∧
    (relFold exObjsClosed exRefsMissing).1 = [] := by
  decide

/-- C2 (amended): a relation is dropped — working collection non-empty,
no polygon — exactly when the ways it actually consumes leave unmatched
endpoints; in particular when a missing member way was open, its absence
makes some node's endpoint count odd and `rel_polygon` returns `None`,
but a relation missing only closed ways still emits a polygon. -/
theorem relPolygon_broken (objs : List OsmObj) (refs : List OsmRef)
    (h : cancels (memberWays objs refs) = false) :
    (relFold objs refs).1 ≠ [] ∧ relPolygon objs refs = none := by
  obtain ⟨k1, k2, k3, k4, k5⟩ := relFold_inv objs refs ([], ⟨[], []⟩)
    (by simp) rfl List.Pairwise.nil (by simp)
  have hfold : refs.foldl (relStep objs) ([], ⟨[], []⟩) = relFold objs refs :=
    rfl
  rw [hfold] at k5
  have hne : (relFold objs refs).1 ≠ [] := by
    intro hempty
    have hall : ∀ n, endSum2 n (memberWays objs refs) = 0 := by
      intro n
      have hk := k5 n
      rw [hempty] at hk
      have hk2 : (0 : ZMod 2) = 0 + endSum2 n (memberWays objs refs) := hk
      rw [zero_add] at hk2
      exact hk2.symm
    rw [cancels_complete hall] at h
    cases h
  exact ⟨hne, by rw [relPolygon, if_neg hne]⟩

/-- C2 witness: the amended statement evaluated on a relation with a
single open member way (endpoints 1 and 2 remain unmatched). -/
theorem relPolygon_broken_witness :
    (relFold exObjsOpen exRefsOpen).1 ≠ [] ∧
      relPolygon exObjsOpen exRefsOpen = none :=
  relPolygon_broken exObjsOpen exRefsOpen (by decide)

end Earthwyrm
